import Mathlib

/-!
Verification of the blackstart workflow engine against its specification.

The definitions below are a shallow embedding of the Go sources:

* `workflow.go` — `Workflow.Run` / `workflowExecution.execute`,
  `checkInputsOutputs`, `setupOperationContext`, `dependencyGraph.dfs`,
  `dependencyGraph.topoSort`, `opoSort`, `matchesType`;
* `operation.go` — `Operation`, `Operation.setup`, `Operation.execute`;
* `module.go` — `moduleInput` (the `Input` interface), `NewInputFromValue`,
  `NewInputFromDep`, `moduleContext` (`Input`/`Output`/`setInput`/`getOutput`),
  `newModuleContext`, `RegisterModule`, `NewModule`.

Modelling conventions:

* Go `any` values are modelled by the first-order type `GoValue`; the dynamic
  type of a value is recoverable from its constructor, mirroring Go's runtime
  type tags.  Non-scalar values are represented by the constructor
  `GoValue.other` carrying an abstract type tag and payload.
* Go maps are modelled as association lists with the update-in-place
  (`mapSet`) and first-hit lookup (`mapGet`) operations; iteration over a map
  is modelled as iteration over the association list.  Where a semantic
  statement depends on keys being unique (a Go map invariant), the theorem
  carries an explicit `Nodup` hypothesis on the key list.
* Go functions that can panic are embedded with an `Except` result whose
  error case marks the panic; functions that cannot panic are total.
* The recursive `dependencyGraph.dfs` is embedded with an explicit fuel
  parameter (Go's recursion is unbounded); `opoSort` supplies fuel that is
  proved sufficient for every input (`opoSort_no_fuel`), so the fuel is an
  artifact of the embedding and never changes observable behaviour.
* `float64` values never undergo arithmetic in the engine; they are carried
  as their bit patterns (`Nat`), with `0.0` represented by `0`.
-/

namespace Blackstart

/-! ## Go values (the `any` universe seen by the engine) -/

/-- A Go `any` value as seen by the engine: the scalar kinds that
`NewInputFromValue` detects, the untyped `nil`, and an `other` constructor
for every remaining Go value (structs, maps, interface values …), carrying
an abstract type tag and payload. -/
inductive GoValue where
  | nil
  | str (s : String)
  | bool (b : Bool)
  | int (n : Int)
  | int64 (n : Int)
  | uint64 (n : Nat)
  | float64 (bits : Nat)
  | other (ty : Nat) (payload : Nat)
  deriving DecidableEq, Repr

/-! ## Association-list model of Go maps -/

/-- Lookup in a Go map modelled as an association list (first hit wins;
the update operation keeps keys unique). Models `m[k]` with its `ok` flag. -/
def mapGet {α : Type} (m : List (String × α)) (k : String) : Option α :=
  match m.find? (fun p => p.1 == k) with
  | some p => some p.2
  | none => none

/-- Update of a Go map modelled as an association list: replace the binding
if the key is present, append it otherwise. Models `m[k] = v`. -/
def mapSet {α : Type} (m : List (String × α)) (k : String) (v : α) :
    List (String × α) :=
  match m with
  | [] => [(k, v)]
  | (k', v') :: rest =>
    if k' == k then (k, v) :: rest else (k', v') :: mapSet rest k v

/-! ## The value model: `moduleInput` / `Input` (module.go) -/

/-- `inputType` from module.go. -/
inductive InputTy where
  | undefinedInput
  | stringInput
  | boolInput
  | numberInput
  | unsignedNumberInput
  | floatInput
  | anyInput
  deriving DecidableEq, Repr

/-- `dependencyOutput` from module.go. -/
structure DependencyOutput where
  operationId : String
  output : String
  deriving DecidableEq, Repr

/-- `moduleInput` from module.go.  Unset Go fields default to their zero
values, exactly as in a Go composite literal. -/
structure ModuleInput where
  defaultType : InputTy := .undefinedInput
  stringValue : String := ""
  boolValue : Bool := false
  numberValue : Int := 0
  unsignedNumberValue : Nat := 0
  floatValue : Nat := 0
  anyValue : GoValue := .nil
  dependencyOutputValue : Option DependencyOutput := none
  deriving DecidableEq, Repr

/-- `moduleInput.IsStatic`. -/
def ModuleInput.IsStatic (m : ModuleInput) : Bool :=
  m.dependencyOutputValue.isNone

/-- `moduleInput.String` (returns the `stringValue` field). -/
def ModuleInput.Str (m : ModuleInput) : String :=
  m.stringValue

/-- `moduleInput.Bool`. -/
def ModuleInput.BoolAcc (m : ModuleInput) : Bool :=
  m.boolValue

/-- `moduleInput.Number` (returns the `int64` field `numberValue`). -/
def ModuleInput.Number (m : ModuleInput) : Int :=
  m.numberValue

/-- `moduleInput.Float`. -/
def ModuleInput.FloatAcc (m : ModuleInput) : Nat :=
  m.floatValue

/-- `moduleInput.Any`. -/
def ModuleInput.Any (m : ModuleInput) : GoValue :=
  m.anyValue

/-- `moduleInput.Auto`: returns the value re-wrapped as an `any` according to
the detected `defaultType`.  Note that the source returns `m.Number()` — the
`int64` field — in the `unsignedNumberInput` case. -/
def ModuleInput.Auto (m : ModuleInput) : Except String GoValue :=
  match m.defaultType with
  | .stringInput => .ok (.str m.Str)
  | .boolInput => .ok (.bool m.BoolAcc)
  | .numberInput => .ok (.int64 m.Number)
  | .unsignedNumberInput => .ok (.int64 m.Number)
  | .floatInput => .ok (.float64 m.FloatAcc)
  | .anyInput => .ok m.Any
  | .undefinedInput => .error "unable to determine type"

/-- `moduleInput.DependencyId`. -/
def ModuleInput.DependencyId (m : ModuleInput) : String :=
  match m.dependencyOutputValue with
  | some d => d.operationId
  | none => ""

/-- `moduleInput.OutputKey`. -/
def ModuleInput.OutputKey (m : ModuleInput) : String :=
  match m.dependencyOutputValue with
  | some d => d.output
  | none => ""

/-- `NewInputFromValue` from module.go: inspect the dynamic type of the value
and fill the corresponding field.  A Go `int` is widened to the `int64` field
(`int64(v)`), every non-scalar (including untyped `nil`) lands in the
`anyInput` case. -/
def NewInputFromValue : GoValue → ModuleInput
  | .str v => { stringValue := v, anyValue := .str v, defaultType := .stringInput }
  | .bool v => { boolValue := v, anyValue := .bool v, defaultType := .boolInput }
  | .int v => { numberValue := v, anyValue := .int v, defaultType := .numberInput }
  | .int64 v => { numberValue := v, anyValue := .int64 v, defaultType := .numberInput }
  | .uint64 v =>
    { unsignedNumberValue := v, anyValue := .uint64 v, defaultType := .unsignedNumberInput }
  | .float64 v => { floatValue := v, anyValue := .float64 v, defaultType := .floatInput }
  | v => { anyValue := v, defaultType := .anyInput }

/-- `NewInputFromDep` from module.go. -/
def NewInputFromDep (id : String) (output : String) : ModuleInput :=
  { dependencyOutputValue := some ⟨id, output⟩ }

/-! ## Operations (operation.go) -/

/-- `Operation` from operation.go.  The `Inputs` Go map is modelled as an
association list. -/
structure Operation where
  module : String := ""
  id : String := ""
  name : String := ""
  description : String := ""
  dependsOn : List String := []
  inputs : List (String × ModuleInput) := []
  doesNotExist : Bool := false
  tainted : Bool := false
  deriving DecidableEq, Repr

/-- The loop body of `Operation.setup`: walk the inputs and append the
dependency id of every non-static input that is not yet in `DependsOn`. -/
def setupFold (dependsOn : List String) : List (String × ModuleInput) → List String
  | [] => dependsOn
  | (_, v) :: rest =>
    if v.IsStatic then setupFold dependsOn rest
    else if v.DependencyId ∈ dependsOn then setupFold dependsOn rest
    else setupFold (dependsOn ++ [v.DependencyId]) rest

/-- `Operation.setup` from operation.go.  The Go method mutates its receiver
and always returns a `nil` error; the embedding returns the updated copy of
the receiver. -/
def Operation.setup (o : Operation) : Operation :=
  { o with dependsOn := setupFold o.dependsOn o.inputs }

/-! ## Dependency graph and topological sort (workflow.go) -/

/-- The `deps` map of `dependencyGraph` as built by `opoSort`: for each
operation (in slice order) and each entry of its `DependsOn`,
`addDep(op.Id, dep)` appends `dep` to `deps[op.Id]`.  The resulting list for
an id is therefore the concatenation of the `DependsOn` lists of the
operations carrying that id, in slice order. -/
def graphDeps (ops : List Operation) (id : String) : List String :=
  (ops.filter (fun op => op.id == id)).flatMap (fun op => op.dependsOn)

/-- The edge relation of the dependency graph: `graphEdge ops a b` holds when
the graph built by `opoSort` has the edge `a → b` (operation `a` depends on
`b`). -/
def graphEdge (ops : List Operation) (a b : String) : Prop :=
  b ∈ graphDeps ops a

instance (ops : List Operation) (a b : String) : Decidable (graphEdge ops a b) := by
  unfold graphEdge; infer_instance

/-- Error outcome of the embedded `dfs`.  `cycle id` models
`fmt.Errorf("cycle involving %q: %w", depId, ErrOperationCycle)`;
`fuelExhausted` is an artifact of the fuel embedding and is proved
unreachable for the fuel that `opoSort` supplies. -/
inductive DfsErr where
  | cycle (id : String)
  | fuelExhausted
  deriving DecidableEq, Repr

/-- The `for _, depId := range g.deps[opId]` loop inside
`dependencyGraph.dfs`: abort with the cycle error when the dependency is on
the recursion stack, skip it when already visited, and otherwise recurse
(`recurse` is the recursive call of `dfs` at the next fuel level).  The
`visited` set and the `order` slice are threaded; the recursion stack is
fixed for the duration of the loop. -/
def dfsLoop
    (recurse : String → List String → List String →
      Except DfsErr (List String × List String))
    (recursionStack : List String) :
    List String → List String → List String →
      Except DfsErr (List String × List String)
  | [], visited, order => .ok (visited, order)
  | depId :: rest, visited, order =>
    if depId ∈ recursionStack then .error (.cycle depId)
    else if depId ∈ visited then dfsLoop recurse recursionStack rest visited order
    else
      match recurse depId visited order with
      | .error e => .error e
      | .ok (visited', order') => dfsLoop recurse recursionStack rest visited' order'

/-- `dependencyGraph.dfs`: mark the node visited, push it on the recursion
stack, process its dependencies, then emit it in post-order.  The `visited`
map and the `order` slice are threaded through; the recursion stack has no
net effect on the caller's stack (the Go code sets the entry back to `false`
before returning), so it is passed down as context. -/
def dfs (deps : String → List String) :
    Nat → String → List String → List String → List String →
      Except DfsErr (List String × List String)
  | 0, _, _, _, _ => .error .fuelExhausted
  | fuel + 1, opId, visited, recursionStack, order =>
    match dfsLoop (fun d v o => dfs deps fuel d v (opId :: recursionStack) o)
        (opId :: recursionStack) (deps opId) (opId :: visited) order with
    | .error e => .error e
    | .ok (visited', order') => .ok (visited', order' ++ [opId])

/-- The `for _, opId := range g.ops` loop of `dependencyGraph.topoSort`:
run `dfs` from every not-yet-visited node. -/
def topoSortLoop (deps : String → List String) (fuel : Nat) :
    List String → List String → List String →
      Except DfsErr (List String × List String)
  | [], visited, order => .ok (visited, order)
  | opId :: rest, visited, order =>
    if opId ∈ visited then topoSortLoop deps fuel rest visited order
    else
      match dfs deps fuel opId visited [] order with
      | .error e => .error e
      | .ok (visited', order') => topoSortLoop deps fuel rest visited' order'

/-- `dependencyGraph.topoSort`: empty visited set, empty recursion stack,
empty order, then the loop over `g.ops`. -/
def topoSort (deps : String → List String) (gops : List String) (fuel : Nat) :
    Except DfsErr (List String) :=
  match topoSortLoop deps fuel gops [] [] with
  | .error e => .error e
  | .ok (_, order) => .ok order

/-- Total number of `DependsOn` entries over a slice of operations; used to
size the fuel of the embedded recursion. -/
def totalDeps (ops : List Operation) : Nat :=
  (ops.map (fun op => op.dependsOn.length)).sum

/-- `opoSort` from workflow.go: build the dependency graph from the
operations and topologically sort it.  The fuel bounds the recursion depth
of `dfs`; `opoSort_no_fuel` shows it is never exhausted. -/
def opoSort (ops : List Operation) : Except DfsErr (List String) :=
  topoSort (graphDeps ops) (ops.map (fun op => op.id))
    (ops.length + totalDeps ops + 1)

/-! ## Topological sort: basic lemmas -/

/-- Monotonicity of the dependency loop: on success the visited set only
grows and the order is only appended to (generic in the recursive call). -/
lemma dfsLoop_mono {recurse : String → List String → List String →
      Except DfsErr (List String × List String)} {rs : List String}
    (hrec : ∀ d v o v' o', recurse d v o = .ok (v', o') →
      (∀ x, x ∈ v → x ∈ v') ∧ ∃ os, o' = o ++ os) :
    ∀ ds v o v₂ o₂, dfsLoop recurse rs ds v o = .ok (v₂, o₂) →
      (∀ x, x ∈ v → x ∈ v₂) ∧ ∃ os, o₂ = o ++ os := by
  intro ds
  induction ds with
  | nil =>
    intro v o v₂ o₂ h
    simp only [dfsLoop, Except.ok.injEq, Prod.mk.injEq] at h
    obtain ⟨h1, h2⟩ := h
    subst h1; subst h2
    exact ⟨fun x hx => hx, [], by simp⟩
  | cons d rest ih =>
    intro v o v₂ o₂ h
    simp only [dfsLoop] at h
    by_cases hrs : d ∈ rs
    · simp [hrs] at h
    · rw [if_neg hrs] at h
      by_cases hv : d ∈ v
      · rw [if_pos hv] at h
        exact ih v o v₂ o₂ h
      · rw [if_neg hv] at h
        cases hcall : recurse d v o with
        | error e => rw [hcall] at h; simp at h
        | ok p =>
          obtain ⟨v', o'⟩ := p
          rw [hcall] at h
          obtain ⟨hm, os, ho⟩ := hrec d v o v' o' hcall
          obtain ⟨hm2, os2, ho2⟩ := ih v' o' v₂ o₂ h
          exact ⟨fun x hx => hm2 x (hm x hx), os ++ os2,
            by rw [ho2, ho, List.append_assoc]⟩

/-- Monotonicity of `dfs`: on success the visited set only grows and the
order is only appended to. -/
lemma dfs_mono (deps : String → List String) :
    ∀ fuel opId v rs o v' o', dfs deps fuel opId v rs o = .ok (v', o') →
      (∀ x, x ∈ v → x ∈ v') ∧ ∃ os, o' = o ++ os := by
  intro fuel
  induction fuel with
  | zero => intro opId v rs o v' o' h; simp [dfs] at h
  | succ n ih =>
    intro opId v rs o v' o' h
    simp only [dfs] at h
    cases hcall : dfsLoop (fun d v o => dfs deps n d v (opId :: rs) o)
        (opId :: rs) (deps opId) (opId :: v) o with
    | error e => rw [hcall] at h; simp at h
    | ok p =>
      obtain ⟨v₂, o₂⟩ := p
      rw [hcall] at h
      simp only [Except.ok.injEq, Prod.mk.injEq] at h
      obtain ⟨h1, h2⟩ := h
      subst h1; subst h2
      have hrec : ∀ d v o v' o',
          dfs deps n d v (opId :: rs) o = .ok (v', o') →
          (∀ x, x ∈ v → x ∈ v') ∧ ∃ os, o' = o ++ os :=
        fun d v o v' o' hc => ih d v (opId :: rs) o v' o' hc
      obtain ⟨hm, os, ho⟩ := dfsLoop_mono hrec (deps opId) (opId :: v) o v₂ o₂ hcall
      exact ⟨fun x hx => hm x (List.mem_cons_of_mem _ hx), os ++ [opId],
        by rw [ho, List.append_assoc]⟩

/-- Cardinality of the still-unvisited part of a finite universe. -/
def unvisited (univ v : List String) : Nat :=
  (univ.toFinset \ v.toFinset).card

lemma unvisited_mono (univ : List String) {v v' : List String}
    (h : ∀ x, x ∈ v → x ∈ v') : unvisited univ v' ≤ unvisited univ v := by
  apply Finset.card_le_card
  apply Finset.sdiff_subset_sdiff (le_refl _)
  intro x hx
  rw [List.mem_toFinset] at hx ⊢
  exact h x hx

lemma unvisited_cons_lt {univ v : List String} {a : String}
    (ha : a ∈ univ) (hv : a ∉ v) : unvisited univ (a :: v) < unvisited univ v := by
  unfold unvisited
  rw [List.toFinset_cons, Finset.sdiff_insert]
  apply Finset.card_erase_lt_of_mem
  rw [Finset.mem_sdiff, List.mem_toFinset, List.mem_toFinset]
  exact ⟨ha, hv⟩

/-- The dependency loop never reports fuel exhaustion when the recursive
call cannot (generic in the recursive call). -/
lemma dfsLoop_no_fuel {recurse : String → List String → List String →
      Except DfsErr (List String × List String)}
    {rs univ : List String} {F : Nat}
    (hmono : ∀ d v o v' o', recurse d v o = .ok (v', o') → ∀ x, x ∈ v → x ∈ v')
    (hnf : ∀ d v o, d ∈ univ → d ∉ v → unvisited univ v < F →
      recurse d v o ≠ .error .fuelExhausted) :
    ∀ ds v o, (∀ d ∈ ds, d ∈ univ) → unvisited univ v < F →
      dfsLoop recurse rs ds v o ≠ .error .fuelExhausted := by
  intro ds
  induction ds with
  | nil => intro v o _ _ h; simp [dfsLoop] at h
  | cons d rest ih =>
    intro v o hds hcard h
    simp only [dfsLoop] at h
    by_cases hrs : d ∈ rs
    · simp [hrs] at h
    · rw [if_neg hrs] at h
      by_cases hv : d ∈ v
      · rw [if_pos hv] at h
        exact ih v o (fun x hx => hds x (List.mem_cons_of_mem _ hx)) hcard h
      · rw [if_neg hv] at h
        cases hcall : recurse d v o with
        | error e =>
          rw [hcall] at h
          cases e with
          | cycle _ => simp at h
          | fuelExhausted =>
            exact hnf d v o (hds d (List.mem_cons_self _ _)) hv hcard hcall
        | ok p =>
          obtain ⟨v', o'⟩ := p
          rw [hcall] at h
          have hle := unvisited_mono univ (hmono d v o v' o' hcall)
          exact ih v' o' (fun x hx => hds x (List.mem_cons_of_mem _ hx))
            (lt_of_le_of_lt hle hcard) h

/-- `dfs` never reports fuel exhaustion when the fuel exceeds the number of
unvisited nodes of a universe that is closed under the dependency map. -/
lemma dfs_no_fuel (deps : String → List String) (univ : List String)
    (Hdeps : ∀ x d, d ∈ deps x → d ∈ univ) :
    ∀ fuel opId v rs o, opId ∈ univ → opId ∉ v → unvisited univ v < fuel →
      dfs deps fuel opId v rs o ≠ .error .fuelExhausted := by
  intro fuel
  induction fuel with
  | zero => intro opId v rs o _ _ hcard; omega
  | succ n ih =>
    intro opId v rs o hu hv hcard h
    simp only [dfs] at h
    cases hcall : dfsLoop (fun d v o => dfs deps n d v (opId :: rs) o)
        (opId :: rs) (deps opId) (opId :: v) o with
    | error e =>
      rw [hcall] at h
      simp only [Except.error.injEq] at h
      subst h
      have hmono : ∀ d v o v' o',
          dfs deps n d v (opId :: rs) o = .ok (v', o') → ∀ x, x ∈ v → x ∈ v' :=
        fun d v o v' o' hc => (dfs_mono deps n d v (opId :: rs) o v' o' hc).1
      have hnf : ∀ d v o, d ∈ univ → d ∉ v → unvisited univ v < n →
          dfs deps n d v (opId :: rs) o ≠ .error .fuelExhausted :=
        fun d v o h1 h2 h3 => ih d v (opId :: rs) o h1 h2 h3
      have hlt : unvisited univ (opId :: v) < n := by
        have := unvisited_cons_lt hu hv
        omega
      exact dfsLoop_no_fuel hmono hnf (deps opId) (opId :: v) o
        (fun d hd => Hdeps opId d hd) hlt hcall
    | ok p => rw [hcall] at h; simp at h

/-- The outer loop of `topoSort` never reports fuel exhaustion under the
same conditions. -/
lemma topoSortLoop_no_fuel {deps : String → List String} {univ : List String}
    {fuel : Nat} (Hdeps : ∀ x d, d ∈ deps x → d ∈ univ) :
    ∀ ids v o, (∀ i ∈ ids, i ∈ univ) → unvisited univ v < fuel →
      topoSortLoop deps fuel ids v o ≠ .error .fuelExhausted := by
  intro ids
  induction ids with
  | nil => intro v o _ _ h; simp [topoSortLoop] at h
  | cons i rest ih =>
    intro v o hids hcard h
    simp only [topoSortLoop] at h
    by_cases hv : i ∈ v
    · rw [if_pos hv] at h
      exact ih v o (fun x hx => hids x (List.mem_cons_of_mem _ hx)) hcard h
    · rw [if_neg hv] at h
      cases hcall : dfs deps fuel i v [] o with
      | error e =>
        rw [hcall] at h
        simp only [Except.error.injEq] at h
        subst h
        exact dfs_no_fuel deps univ Hdeps fuel i v [] o
          (hids i (List.mem_cons_self _ _)) hv hcard hcall
      | ok p =>
        obtain ⟨v', o'⟩ := p
        rw [hcall] at h
        have hle := unvisited_mono univ
          (dfs_mono deps fuel i v [] o v' o' hcall).1
        exact ih v' o' (fun x hx => hids x (List.mem_cons_of_mem _ hx))
          (lt_of_le_of_lt hle hcard) h

/-- `opoSort` never reports fuel exhaustion: the fuel it supplies exceeds
the number of distinct node ids of the graph, which bounds the recursion
depth of `dfs`.  The fuel is therefore a proof artifact only. -/
lemma opoSort_no_fuel (ops : List Operation) :
    opoSort ops ≠ .error .fuelExhausted := by
  intro h
  unfold opoSort topoSort at h
  set univ := ops.map (fun op => op.id) ++ ops.flatMap (fun op => op.dependsOn)
    with huniv
  have Hdeps : ∀ x d, d ∈ graphDeps ops x → d ∈ univ := by
    intro x d hd
    unfold graphDeps at hd
    rw [List.mem_flatMap] at hd
    obtain ⟨op, hop, hdep⟩ := hd
    rw [List.mem_filter] at hop
    rw [huniv, List.mem_append, List.mem_flatMap]
    exact Or.inr ⟨op, hop.1, hdep⟩
  have hids : ∀ i ∈ ops.map (fun op => op.id), i ∈ univ := by
    intro i hi
    rw [huniv, List.mem_append]
    exact Or.inl hi
  have hcard : unvisited univ [] < ops.length + totalDeps ops + 1 := by
    unfold unvisited
    have h1 : univ.toFinset.card ≤ univ.length := List.toFinset_card_le univ
    have h2 : univ.length = ops.length + totalDeps ops := by
      rw [huniv, List.length_append, List.length_map, List.length_flatMap]
      unfold totalDeps
      rfl
    simp only [List.toFinset_nil, Finset.sdiff_empty]
    omega
  cases hcall : topoSortLoop (graphDeps ops)
      (ops.length + totalDeps ops + 1) (ops.map (fun op => op.id)) [] [] with
  | error e =>
    rw [hcall] at h
    simp only [Except.error.injEq] at h
    subst h
    exact topoSortLoop_no_fuel Hdeps _ [] [] hids hcard hcall
  | ok p => rw [hcall] at h; simp at h

/-! ## Topological sort: the depth-first invariant -/

/-- A list of node ids is a good order when every dependency of every listed
node occurs strictly before it. -/
def GoodOrder (deps : String → List String) (l : List String) : Prop :=
  ∀ l₁ a l₂, l = l₁ ++ a :: l₂ → ∀ d ∈ deps a, d ∈ l₁

lemma goodOrder_nil (deps : String → List String) : GoodOrder deps [] := by
  intro l₁ a l₂ h
  exact absurd h (by simp)

lemma append_singleton_eq_split {α : Type} {l l₁ l₂ : List α} {a b : α}
    (h : l ++ [a] = l₁ ++ b :: l₂) :
    (l₁ = l ∧ b = a ∧ l₂ = []) ∨ (∃ t, l = l₁ ++ b :: t ∧ l₂ = t ++ [a]) := by
  rcases List.eq_nil_or_concat l₂ with h2 | ⟨t, c, h2⟩
  · subst h2
    have := List.append_inj' h (by simp)
    left
    refine ⟨this.1.symm, ?_, rfl⟩
    have := this.2
    simpa using this.symm
  · subst h2
    right
    rw [List.concat_eq_append,
      show l₁ ++ b :: (t ++ [c]) = (l₁ ++ b :: t) ++ [c] by simp] at h
    have := List.append_inj' h (by simp)
    obtain ⟨h3, h4⟩ := this
    simp only [List.cons.injEq] at h4
    exact ⟨t, h3, by rw [h4.1, List.concat_eq_append]⟩

lemma GoodOrder.push {deps : String → List String} {l : List String} {a : String}
    (h : GoodOrder deps l) (hd : ∀ d ∈ deps a, d ∈ l) :
    GoodOrder deps (l ++ [a]) := by
  intro l₁ b l₂ heq d hdep
  rcases append_singleton_eq_split heq with ⟨h1, h2, _⟩ | ⟨t, h1, _⟩
  · subst h1; subst h2
    exact hd d hdep
  · exact h l₁ b t h1 d hdep

/-- Dependencies are listed before their dependents: index form. -/
lemma goodOrder_indexOf {deps : String → List String} {out : List String}
    (hg : GoodOrder deps out) (hnd : out.Nodup) {a d : String}
    (ha : a ∈ out) (hd : d ∈ deps a) :
    out.indexOf d < out.indexOf a := by
  obtain ⟨l₁, l₂, rfl⟩ := List.append_of_mem ha
  have hdl : d ∈ l₁ := hg l₁ a l₂ rfl d hd
  have hal : a ∉ l₁ := by
    rw [List.nodup_append] at hnd
    intro hmem
    exact hnd.2.2 hmem (List.mem_cons_self _ _)
  rw [List.indexOf_append_of_mem hdl, List.indexOf_append_of_not_mem hal]
  have := List.indexOf_lt_length.mpr hdl
  omega

/-- The depth-first invariant: the visited set is exactly the emitted order
plus the recursion stack, the order has no duplicates, no emitted node is
still on the stack, and the order lists dependencies first. -/
def Inv (deps : String → List String) (visited rs order : List String) : Prop :=
  (∀ x, x ∈ visited ↔ x ∈ order ∨ x ∈ rs) ∧ order.Nodup ∧
    (∀ x ∈ order, x ∉ rs) ∧ GoodOrder deps order

/-- Contract of one recursive `dfs` call as used by `dfsLoop`: starting from
an unvisited node and an invariant state, a successful call preserves the
invariant, only grows the visited set, and appends a block of newly emitted
nodes that contains the node itself and only nodes drawn from the node or
the dependency map's range. -/
def VisitSpec (deps : String → List String)
    (recurse : String → List String → List String →
      Except DfsErr (List String × List String))
    (rs : List String) : Prop :=
  ∀ d v o v' o', d ∉ v → Inv deps v rs o → recurse d v o = .ok (v', o') →
    Inv deps v' rs o' ∧ (∀ x, x ∈ v → x ∈ v') ∧
      ∃ os, o' = o ++ os ∧ d ∈ os ∧
        ∀ x ∈ os, x = d ∨ ∃ y, x ∈ deps y

/-- Invariant preservation through the dependency loop. -/
lemma dfsLoop_inv {deps : String → List String}
    {recurse : String → List String → List String →
      Except DfsErr (List String × List String)}
    {rs : List String} (hrec : VisitSpec deps recurse rs) :
    ∀ ds v o v₂ o₂, Inv deps v rs o → dfsLoop recurse rs ds v o = .ok (v₂, o₂) →
      Inv deps v₂ rs o₂ ∧ (∀ x, x ∈ v → x ∈ v₂) ∧
        (∃ os, o₂ = o ++ os ∧ ∀ x ∈ os, x ∈ ds ∨ ∃ y, x ∈ deps y) ∧
        ∀ d ∈ ds, d ∈ o₂ := by
  intro ds
  induction ds with
  | nil =>
    intro v o v₂ o₂ hinv h
    simp only [dfsLoop, Except.ok.injEq, Prod.mk.injEq] at h
    obtain ⟨h1, h2⟩ := h
    subst h1; subst h2
    exact ⟨hinv, fun x hx => hx, ⟨[], by simp⟩, by simp⟩
  | cons d rest ih =>
    intro v o v₂ o₂ hinv h
    simp only [dfsLoop] at h
    by_cases hrs : d ∈ rs
    · simp [hrs] at h
    · rw [if_neg hrs] at h
      by_cases hv : d ∈ v
      · rw [if_pos hv] at h
        obtain ⟨hinv₂, hsub, ⟨os, ho, hos⟩, hrest⟩ := ih v o v₂ o₂ hinv h
        refine ⟨hinv₂, hsub, ⟨os, ho, ?_⟩, ?_⟩
        · exact fun x hx => (hos x hx).imp (List.mem_cons_of_mem _) id
        · intro e he
          rcases List.mem_cons.mp he with heq | he'
          · rw [heq]
            have hdo : d ∈ o := by
              rcases (hinv.1 d).mp hv with h' | h'
              · exact h'
              · exact absurd h' hrs
            rw [ho]
            exact List.mem_append_left _ hdo
          · exact hrest e he'
      · rw [if_neg hv] at h
        cases hcall : recurse d v o with
        | error e => rw [hcall] at h; simp at h
        | ok p =>
          obtain ⟨v', o'⟩ := p
          rw [hcall] at h
          obtain ⟨hinv', hsub', os', ho', hdos', hprov'⟩ :=
            hrec d v o v' o' hv hinv hcall
          obtain ⟨hinv₂, hsub₂, ⟨os₂, ho₂, hos₂⟩, hrest⟩ := ih v' o' v₂ o₂ hinv' h
          refine ⟨hinv₂, fun x hx => hsub₂ x (hsub' x hx),
            ⟨os' ++ os₂, by rw [ho₂, ho', List.append_assoc], ?_⟩, ?_⟩
          · intro x hx
            rcases List.mem_append.mp hx with hx' | hx'
            · rcases hprov' x hx' with rfl | hy
              · exact Or.inl (List.mem_cons_self _ _)
              · exact Or.inr hy
            · exact (hos₂ x hx').imp (List.mem_cons_of_mem _) id
          · intro e he
            rcases List.mem_cons.mp he with heq | he'
            · rw [heq, ho₂]
              apply List.mem_append_left
              rw [ho']
              exact List.mem_append_right _ hdos'
            · exact hrest e he'

/-- `dfs` satisfies the visit contract at every fuel level and for every
recursion stack. -/
lemma dfs_visitSpec (deps : String → List String) :
    ∀ fuel rs, VisitSpec deps (fun d v o => dfs deps fuel d v rs o) rs := by
  intro fuel
  induction fuel with
  | zero => intro rs d v o v' o' _ _ h; simp [dfs] at h
  | succ n ih =>
    intro rs d v o v' o' hdv hinv h
    simp only [dfs] at h
    cases hcall : dfsLoop (fun x v o => dfs deps n x v (d :: rs) o)
        (d :: rs) (deps d) (d :: v) o with
    | error e => rw [hcall] at h; simp at h
    | ok p =>
      obtain ⟨v₂, o₂⟩ := p
      rw [hcall] at h
      simp only [Except.ok.injEq, Prod.mk.injEq] at h
      obtain ⟨h1, h2⟩ := h
      subst h1; subst h2
      obtain ⟨Hv, Hnd, Hdisj, Hgood⟩ := hinv
      have hdrs : d ∉ rs := fun hmem => hdv ((Hv d).mpr (Or.inr hmem))
      have hinv1 : Inv deps (d :: v) (d :: rs) o := by
        refine ⟨?_, Hnd, ?_, Hgood⟩
        · intro x
          by_cases hx : x = d
          · subst hx; simp
          · simp only [List.mem_cons, hx, false_or]
            rw [Hv x]
          -- membership in the pushed stack and visited set
        · intro x hx
          have hxv : x ∈ v := (Hv x).mpr (Or.inl hx)
          have hxd : x ≠ d := fun he => hdv (he ▸ hxv)
          have hxrs : x ∉ rs := Hdisj x hx
          simp [hxd, hxrs]
      obtain ⟨hinv₂, hsub, ⟨os, ho, hprov⟩, hds⟩ :=
        dfsLoop_inv (ih (d :: rs)) (deps d) (d :: v) o v₂ o₂ hinv1 hcall
      obtain ⟨Hv₂, Hnd₂, Hdisj₂, Hgood₂⟩ := hinv₂
      have hdno : d ∉ o₂ := fun hmem => Hdisj₂ d hmem (List.mem_cons_self _ _)
      refine ⟨⟨?_, ?_, ?_, ?_⟩, ?_, os ++ [d], by rw [ho, List.append_assoc], ?_, ?_⟩
      · intro x
        rw [Hv₂ x]
        simp only [List.mem_append, List.mem_singleton, List.mem_cons]
        tauto
      · rw [List.nodup_append]
        exact ⟨Hnd₂, List.nodup_singleton d,
          fun x hx hmem => (List.mem_singleton.mp hmem ▸ hdno) hx⟩
      · intro x hx
        rcases List.mem_append.mp hx with hx' | hx'
        · have := Hdisj₂ x hx'
          intro hmem
          exact this (List.mem_cons_of_mem _ hmem)
        · rw [List.mem_singleton] at hx'
          subst hx'
          exact hdrs
      · exact Hgood₂.push (fun e he => hds e he)
      · exact fun x hx => hsub x (List.mem_cons_of_mem _ hx)
      · exact List.mem_append_right _ (List.mem_singleton_self d)
      · intro x hx
        rcases List.mem_append.mp hx with hx' | hx'
        · rcases hprov x hx' with hy | hy
          · exact Or.inr ⟨d, hy⟩
          · exact Or.inr hy
        · exact Or.inl (List.mem_singleton.mp hx')

/-- Invariant preservation through the outer loop of `topoSort`. -/
lemma topoSortLoop_inv {deps : String → List String} {fuel : Nat} :
    ∀ ids v o v₂ o₂, Inv deps v [] o →
      topoSortLoop deps fuel ids v o = .ok (v₂, o₂) →
      Inv deps v₂ [] o₂ ∧
        (∃ os, o₂ = o ++ os ∧ ∀ x ∈ os, x ∈ ids ∨ ∃ y, x ∈ deps y) ∧
        ∀ i ∈ ids, i ∈ o₂ := by
  intro ids
  induction ids with
  | nil =>
    intro v o v₂ o₂ hinv h
    simp only [topoSortLoop, Except.ok.injEq, Prod.mk.injEq] at h
    obtain ⟨h1, h2⟩ := h
    subst h1; subst h2
    exact ⟨hinv, ⟨[], by simp⟩, by simp⟩
  | cons i rest ih =>
    intro v o v₂ o₂ hinv h
    simp only [topoSortLoop] at h
    by_cases hv : i ∈ v
    · rw [if_pos hv] at h
      obtain ⟨hinv₂, ⟨os, ho, hprov⟩, hrest⟩ := ih v o v₂ o₂ hinv h
      refine ⟨hinv₂, ⟨os, ho, fun x hx => (hprov x hx).imp (List.mem_cons_of_mem _) id⟩, ?_⟩
      intro e he
      rcases List.mem_cons.mp he with heq | he'
      · rw [heq]
        have hio : i ∈ o := by
          rcases (hinv.1 i).mp hv with h' | h'
          · exact h'
          · exact absurd h' (List.not_mem_nil i)
        rw [ho]
        exact List.mem_append_left _ hio
      · exact hrest e he'
    · rw [if_neg hv] at h
      cases hcall : dfs deps fuel i v [] o with
      | error e => rw [hcall] at h; simp at h
      | ok p =>
        obtain ⟨v', o'⟩ := p
        rw [hcall] at h
        obtain ⟨hinv', hsub', os', ho', hios', hprov'⟩ :=
          dfs_visitSpec deps fuel [] i v o v' o' hv hinv hcall
        obtain ⟨hinv₂, ⟨os₂, ho₂, hprov₂⟩, hrest⟩ := ih v' o' v₂ o₂ hinv' h
        refine ⟨hinv₂, ⟨os' ++ os₂, by rw [ho₂, ho', List.append_assoc], ?_⟩, ?_⟩
        · intro x hx
          rcases List.mem_append.mp hx with hx' | hx'
          · rcases hprov' x hx' with rfl | hy
            · exact Or.inl (List.mem_cons_self _ _)
            · exact Or.inr hy
          · exact (hprov₂ x hx').imp (List.mem_cons_of_mem _) id
        · intro e he
          rcases List.mem_cons.mp he with heq | he'
          · rw [heq, ho₂]
            apply List.mem_append_left
            rw [ho']
            exact List.mem_append_right _ hios'
          · exact hrest e he'

/-- Everything `opoSort` guarantees on success: the output has no
duplicates, lists dependencies before dependents, contains every operation
id, and contains only operation ids and dependency targets. -/
lemma opoSort_ok_spec {ops : List Operation} {out : List String}
    (h : opoSort ops = .ok out) :
    out.Nodup ∧ GoodOrder (graphDeps ops) out ∧
      (∀ i ∈ ops.map (fun op => op.id), i ∈ out) ∧
      (∀ x ∈ out, x ∈ ops.map (fun op => op.id) ∨ ∃ y, x ∈ graphDeps ops y) := by
  unfold opoSort topoSort at h
  cases hcall : topoSortLoop (graphDeps ops) (ops.length + totalDeps ops + 1)
      (ops.map (fun op => op.id)) [] [] with
  | error e => rw [hcall] at h; simp at h
  | ok p =>
    obtain ⟨v₂, o₂⟩ := p
    rw [hcall] at h
    simp only [Except.ok.injEq] at h
    subst h
    have hinv0 : Inv (graphDeps ops) [] [] [] :=
      ⟨by simp, List.nodup_nil, by simp, goodOrder_nil _⟩
    obtain ⟨⟨_, hnd, _, hgood⟩, ⟨os, ho, hprov⟩, hids⟩ :=
      topoSortLoop_inv (ops.map (fun op => op.id)) [] [] v₂ o₂ hinv0 hcall
    refine ⟨hnd, hgood, hids, ?_⟩
    intro x hx
    rw [ho] at hx
    simp only [List.nil_append] at hx
    exact hprov x hx

/-! ## Topological sort: the cycle error names a node on a cycle -/

/-- Walking down the recursion stack follows graph edges: every stack entry
reaches the top of the stack. -/
lemma chain_reflTransGen (deps : String → List String) :
    ∀ cs c x, List.Chain' (fun a b => a ∈ deps b) (c :: cs) → x ∈ c :: cs →
      Relation.ReflTransGen (fun a b => b ∈ deps a) x c := by
  intro cs
  induction cs with
  | nil =>
    intro c x _ hx
    rw [List.mem_singleton] at hx
    rw [hx]
  | cons c' cs' ih =>
    intro c x hch hx
    rw [List.chain'_cons] at hch
    rcases List.mem_cons.mp hx with heq | hx'
    · rw [heq]
    · exact (ih c' x hch.2 hx').tail hch.1

/-- If the dependency loop reports `cycle n` while the recursion stack is a
chain of graph edges headed by the node whose dependencies are being walked,
then `n` lies on a directed cycle (generic in the recursive call). -/
lemma dfsLoop_cycle {deps : String → List String}
    {recurse : String → List String → List String →
      Except DfsErr (List String × List String)}
    {h0 : String} {rs : List String} {n : String}
    (hrec : ∀ d v o, List.Chain' (fun a b => a ∈ deps b) (d :: h0 :: rs) →
      recurse d v o = .error (.cycle n) →
      Relation.TransGen (fun a b => b ∈ deps a) n n) :
    ∀ ds v o, (∀ d ∈ ds, d ∈ deps h0) →
      List.Chain' (fun a b => a ∈ deps b) (h0 :: rs) →
      dfsLoop recurse (h0 :: rs) ds v o = .error (.cycle n) →
      Relation.TransGen (fun a b => b ∈ deps a) n n := by
  intro ds
  induction ds with
  | nil => intro v o _ _ h; simp [dfsLoop] at h
  | cons d rest ih =>
    intro v o hds hch h
    simp only [dfsLoop] at h
    by_cases hrs : d ∈ h0 :: rs
    · rw [if_pos hrs] at h
      simp only [Except.error.injEq, DfsErr.cycle.injEq] at h
      subst h
      have hreach := chain_reflTransGen deps rs h0 d hch hrs
      exact Relation.TransGen.tail' hreach (hds d (List.mem_cons_self _ _))
    · rw [if_neg hrs] at h
      by_cases hv : d ∈ v
      · rw [if_pos hv] at h
        exact ih v o (fun x hx => hds x (List.mem_cons_of_mem _ hx)) hch h
      · rw [if_neg hv] at h
        cases hcall : recurse d v o with
        | error e =>
          rw [hcall] at h
          simp only [Except.error.injEq] at h
          subst h
          have hch' : List.Chain' (fun a b => a ∈ deps b) (d :: h0 :: rs) :=
            List.chain'_cons.mpr ⟨hds d (List.mem_cons_self _ _), hch⟩
          exact hrec d v o hch' hcall
        | ok p =>
          obtain ⟨v', o'⟩ := p
          rw [hcall] at h
          exact ih v' o' (fun x hx => hds x (List.mem_cons_of_mem _ hx)) hch h

/-- If `dfs` reports `cycle n`, then `n` lies on a directed cycle of the
dependency map. -/
lemma dfs_cycle (deps : String → List String) :
    ∀ fuel d v rs o n, List.Chain' (fun a b => a ∈ deps b) (d :: rs) →
      dfs deps fuel d v rs o = .error (.cycle n) →
      Relation.TransGen (fun a b => b ∈ deps a) n n := by
  intro fuel
  induction fuel with
  | zero => intro d v rs o n _ h; simp [dfs] at h
  | succ m ih =>
    intro d v rs o n hch h
    simp only [dfs] at h
    cases hcall : dfsLoop (fun x v o => dfs deps m x v (d :: rs) o)
        (d :: rs) (deps d) (d :: v) o with
    | error e =>
      rw [hcall] at h
      simp only [Except.error.injEq] at h
      subst h
      exact dfsLoop_cycle (fun d' v' o' hch' hc => ih d' v' (d :: rs) o' n hch' hc)
        (deps d) (d :: v) o (fun x hx => hx) hch hcall
    | ok p => obtain ⟨v', o'⟩ := p; rw [hcall] at h; simp at h

/-- If the outer loop of `topoSort` reports `cycle n`, then `n` lies on a
directed cycle. -/
lemma topoSortLoop_cycle {deps : String → List String} {fuel : Nat} :
    ∀ ids v o n, topoSortLoop deps fuel ids v o = .error (.cycle n) →
      Relation.TransGen (fun a b => b ∈ deps a) n n := by
  intro ids
  induction ids with
  | nil => intro v o n h; simp [topoSortLoop] at h
  | cons i rest ih =>
    intro v o n h
    simp only [topoSortLoop] at h
    by_cases hv : i ∈ v
    · rw [if_pos hv] at h
      exact ih v o n h
    · rw [if_neg hv] at h
      cases hcall : dfs deps fuel i v [] o with
      | error e =>
        rw [hcall] at h
        simp only [Except.error.injEq] at h
        subst h
        exact dfs_cycle deps fuel i v [] o n (List.chain'_singleton i) hcall
      | ok p =>
        obtain ⟨v', o'⟩ := p
        rw [hcall] at h
        exact ih v' o' n h

/-- If `opoSort` reports `cycle n`, then `n` lies on a directed cycle of the
dependency graph. -/
lemma opoSort_cycle_err {ops : List Operation} {n : String}
    (h : opoSort ops = .error (.cycle n)) :
    Relation.TransGen (graphEdge ops) n n := by
  unfold opoSort topoSort at h
  cases hcall : topoSortLoop (graphDeps ops) (ops.length + totalDeps ops + 1)
      (ops.map (fun op => op.id)) [] [] with
  | error e =>
    rw [hcall] at h
    simp only [Except.error.injEq] at h
    subst h
    exact topoSortLoop_cycle (ops.map (fun op => op.id)) [] [] n hcall
  | ok p => obtain ⟨v', o'⟩ := p; rw [hcall] at h; simp at h

/-- On success, every graph edge from an emitted node leads to an earlier
emitted node. -/
lemma goodOrder_edge_mem {deps : String → List String} {out : List String}
    (hg : GoodOrder deps out) {a d : String} (ha : a ∈ out) (hd : d ∈ deps a) :
    d ∈ out := by
  obtain ⟨l₁, l₂, rfl⟩ := List.append_of_mem ha
  exact List.mem_append_left _ (hg l₁ a l₂ rfl d hd)

/-- A successful `opoSort` certifies that the dependency graph is acyclic. -/
lemma opoSort_ok_acyclic {ops : List Operation} {out : List String}
    (h : opoSort ops = .ok out) :
    ∀ n, ¬ Relation.TransGen (graphEdge ops) n n := by
  obtain ⟨hnd, hgood, hcomplete, _⟩ := opoSort_ok_spec h
  intro n hcyc
  have hmem : n ∈ out := by
    obtain ⟨b, hb, _⟩ := (Relation.TransGen.head'_iff).mp hcyc
    have : graphDeps ops n ≠ [] := by
      intro hnil
      rw [graphEdge, hnil] at hb
      exact List.not_mem_nil b hb
    have hop : ∃ op ∈ ops, op.id = n := by
      unfold graphDeps at this
      cases hf : ops.filter (fun op => op.id == n) with
      | nil => rw [hf] at this; simp at this
      | cons op rest =>
        have hopf : op ∈ ops.filter (fun op => op.id == n) := by
          rw [hf]; exact List.mem_cons_self _ _
        rw [List.mem_filter] at hopf
        exact ⟨op, hopf.1, by simpa using hopf.2⟩
    obtain ⟨op, hop', hid⟩ := hop
    apply hcomplete
    rw [List.mem_map]
    exact ⟨op, hop', hid⟩
  have hdesc : ∀ x y, Relation.TransGen (graphEdge ops) x y → x ∈ out →
      y ∈ out ∧ out.indexOf y < out.indexOf x := by
    intro x y ht
    induction ht with
    | single h1 =>
      intro hx
      exact ⟨goodOrder_edge_mem hgood hx h1, goodOrder_indexOf hgood hnd hx h1⟩
    | tail _ h1 ih =>
      intro hx
      obtain ⟨hb, hlt⟩ := ih hx
      refine ⟨goodOrder_edge_mem hgood hb h1, ?_⟩
      have := goodOrder_indexOf hgood hnd hb h1
      omega
  obtain ⟨_, hlt⟩ := hdesc n n hcyc hmem
  omega

/-! ## Claim C1 and C3 theorems -/

/-- A rank function that strictly decreases along every edge certifies
acyclicity. -/
lemma acyclic_of_rank {E : String → String → Prop} (rank : String → Nat)
    (h : ∀ x y, E x y → rank y < rank x) :
    ∀ n, ¬ Relation.TransGen E n n := by
  have hd : ∀ x y, Relation.TransGen E x y → rank y < rank x := by
    intro x y ht
    induction ht with
    | single h1 => exact h _ _ h1
    | tail _ h1 ih => exact lt_trans (h _ _ h1) ih
  intro n hn
  exact lt_irrefl _ (hd n n hn)

/-- The operations of spec scenario S1 (linear chain `a ← b ← c`). -/
def s1ops : List Operation :=
  [{ id := "a" }, { id := "b", dependsOn := ["a"] },
    { id := "c", dependsOn := ["b"] }]

/-- The operations of spec scenario S3 (self-cycle on `c`). -/
def s3ops : List Operation :=
  [{ id := "a" }, { id := "b", dependsOn := ["a"] },
    { id := "c", dependsOn := ["c"] }]

lemma s1_edges {x y : String} (h : graphEdge s1ops x y) :
    (x = "b" ∧ y = "a") ∨ (x = "c" ∧ y = "b") := by
  unfold graphEdge graphDeps s1ops at h
  rw [List.mem_flatMap] at h
  obtain ⟨op, hop, hdep⟩ := h
  rw [List.mem_filter] at hop
  obtain ⟨hmem, hid⟩ := hop
  simp only [List.mem_cons, List.not_mem_nil, or_false] at hmem
  rcases hmem with rfl | rfl | rfl
  · simp at hdep
  · simp only [beq_iff_eq] at hid
    simp only [List.mem_singleton] at hdep
    exact Or.inl ⟨hid.symm, hdep⟩
  · simp only [beq_iff_eq] at hid
    simp only [List.mem_singleton] at hdep
    exact Or.inr ⟨hid.symm, hdep⟩

/-- **C1.** For every workflow whose operation ids are unique, whose every
referenced dependency id names an operation of the same workflow, and whose
dependency graph has no cycle, `opoSort` returns a permutation of the
operation ids in which, for every edge `a → b` (operation `a` lists `b` in
`DependsOn`), `b` precedes `a` in the output. -/
theorem opoSort_topological (ops : List Operation)
    (hnd : (ops.map (fun op => op.id)).Nodup)
    (href : ∀ op ∈ ops, ∀ d ∈ op.dependsOn, d ∈ ops.map (fun op => op.id))
    (hacyc : ∀ n, ¬ Relation.TransGen (graphEdge ops) n n) :
    ∃ out, opoSort ops = .ok out ∧ out.Perm (ops.map (fun op => op.id)) ∧
      ∀ a ∈ ops, ∀ b ∈ a.dependsOn, out.indexOf b < out.indexOf a.id := by
  cases hcall : opoSort ops with
  | error e =>
    cases e with
    | fuelExhausted => exact absurd hcall (opoSort_no_fuel ops)
    | cycle n => exact absurd (opoSort_cycle_err hcall) (hacyc n)
  | ok out =>
    obtain ⟨hnodup, hgood, hcomplete, hprov⟩ := opoSort_ok_spec hcall
    refine ⟨out, rfl, ?_, ?_⟩
    · rw [List.perm_ext_iff_of_nodup hnodup hnd]
      intro x
      constructor
      · intro hx
        rcases hprov x hx with h' | ⟨y, hy⟩
        · exact h'
        · unfold graphDeps at hy
          rw [List.mem_flatMap] at hy
          obtain ⟨op, hop, hdep⟩ := hy
          rw [List.mem_filter] at hop
          exact href op hop.1 x hdep
      · exact fun hx => hcomplete x hx
    · intro a ha b hb
      have hbdep : b ∈ graphDeps ops a.id := by
        unfold graphDeps
        rw [List.mem_flatMap]
        refine ⟨a, ?_, hb⟩
        rw [List.mem_filter]
        exact ⟨ha, by simp⟩
      have haout : a.id ∈ out := hcomplete a.id (List.mem_map.mpr ⟨a, ha, rfl⟩)
      exact goodOrder_indexOf hgood hnodup haout hbdep

/-- Witness for C1 at spec scenario S1: the hypotheses hold for the linear
chain and the theorem applies. -/
theorem opoSort_topological_witness :
    ∃ out, opoSort s1ops = .ok out ∧
      out.Perm (s1ops.map (fun op => op.id)) ∧
      ∀ a ∈ s1ops, ∀ b ∈ a.dependsOn, out.indexOf b < out.indexOf a.id := by
  apply opoSort_topological
  · decide
  · decide
  · apply acyclic_of_rank (fun s => if s = "a" then 0 else if s = "b" then 1 else 2)
    intro x y h
    rcases s1_edges h with ⟨rfl, rfl⟩ | ⟨rfl, rfl⟩ <;> decide

/-- **C3.** For every workflow containing any directed cycle among its
operations, the topological sort fails with the cycle error
(`ErrOperationCycle`, modelled by `DfsErr.cycle`) and the error identifies a
node lying on a cycle; in particular for the S3 workflow
`[{a}, {b,deps:[a]}, {c,deps:[c]}]` it fails identifying `c`. -/
theorem opoSort_cycle_detection :
    (∀ ops : List Operation,
      (∃ n, Relation.TransGen (graphEdge ops) n n) →
      ∃ m, opoSort ops = .error (.cycle m) ∧
        Relation.TransGen (graphEdge ops) m m) ∧
    opoSort s3ops = .error (.cycle "c") := by
  constructor
  · intro ops hn
    obtain ⟨n, hn⟩ := hn
    cases hcall : opoSort ops with
    | ok out => exact absurd hn (opoSort_ok_acyclic hcall n)
    | error e =>
      cases e with
      | fuelExhausted => exact absurd hcall (opoSort_no_fuel ops)
      | cycle m => exact ⟨m, rfl, opoSort_cycle_err hcall⟩
  · rfl

/-- Witness for C3: the S3 workflow has the self-cycle on `c` and the
theorem applies to it. -/
theorem opoSort_cycle_detection_witness :
    ∃ m, opoSort s3ops = .error (.cycle m) ∧
      Relation.TransGen (graphEdge s3ops) m m :=
  opoSort_cycle_detection.1 s3ops ⟨"c", Relation.TransGen.single (by decide)⟩

/-! ## Declared types and module metadata (module.go)

`reflect.Type` values are modelled by `GoType`.  Interface types carry the
set of (abstract) named types implementing them, which turns Go's
reflective `Implements` check into a membership test; `AssignableTo`
between distinct concrete types is modelled as type identity.  No claim
depends on the finer points of Go assignability. -/

/-- Model of a `reflect.Type` as used in `ModuleInfo` declarations. -/
inductive GoType where
  | string
  | bool
  | int
  | int64
  | uint64
  | float64
  | ptr (elem : GoType)
  | iface (impls : List Nat)
  | named (ty : Nat)
  deriving DecidableEq, Repr

/-- `reflect.TypeOf` on the modelled values; `none` is the untyped nil. -/
def typeOfGo : GoValue → Option GoType
  | .nil => none
  | .str _ => some .string
  | .bool _ => some .bool
  | .int _ => some .int
  | .int64 _ => some .int64
  | .uint64 _ => some .uint64
  | .float64 _ => some .float64
  | .other ty _ => some (.named ty)

/-- `t.Kind() == reflect.Interface`. -/
def GoType.isInterface : GoType → Bool
  | .iface _ => true
  | _ => false

/-- `vt.Implements(t)`: only modelled named types implement interfaces. -/
def implementsGo (vt : GoType) (t : GoType) : Bool :=
  match t with
  | .iface impls =>
    match vt with
    | .named n => impls.contains n
    | _ => false
  | _ => false

/-- `matchesType` from workflow.go: untyped nil never matches; interface
targets use `Implements`; otherwise identity, with a pointer target also
accepting its element type. -/
def matchesType (v : GoValue) (t : GoType) : Bool :=
  match typeOfGo v with
  | none => false
  | some vt =>
    if t.isInterface then implementsGo vt t
    else if vt == t then true
    else
      match t with
      | .ptr elem => vt == elem
      | _ => false

/-- `OutputValue` from module.go (declared output metadata). -/
structure OutputValue where
  description : String := ""
  type : GoType := .named 0
  deriving DecidableEq, Repr

/-- `InputValue` from module.go (declared input metadata). -/
structure InputValue where
  description : String := ""
  type : GoType := .named 0
  required : Bool := false
  default : GoValue := .nil
  deriving DecidableEq, Repr

/-- `ModuleInfo` from module.go.  The Go maps are association lists. -/
structure ModuleInfo where
  id : String := ""
  name : String := ""
  description : String := ""
  inputs : List (String × InputValue) := []
  outputs : List (String × OutputValue) := []
  examples : List (String × String) := []
  deriving DecidableEq, Repr

/-! ## Module context (module.go) -/

/-- `moduleContext` from module.go.  The embedded `context.Context` only
forwards deadline/cancellation of the parent and is not modelled; the four
semantic fields are. -/
structure moduleContext where
  inputValues : List (String × ModuleInput) := []
  outputValues : List (String × GoValue) := []
  dne : Bool := false
  tainted : Bool := false
  deriving DecidableEq, Repr

/-- `moduleContext.setInput`: wrap the raw value and store it under the
key (used to inject dependency outputs). -/
def moduleContext.setInput (mc : moduleContext) (key : String) (value : GoValue) :
    moduleContext :=
  { mc with inputValues := mapSet mc.inputValues key (NewInputFromValue value) }

/-- `moduleContext.getOutput`: read an output value, error when absent. -/
def moduleContext.getOutput (mc : moduleContext) (key : String) :
    Except String GoValue :=
  match mapGet mc.outputValues key with
  | none => .error ("output key does not exist: " ++ key)
  | some v => .ok v

/-- `moduleContext.Output`: first write wins, re-writing a key errors. -/
def moduleContext.Output (mc : moduleContext) (key : String) (value : GoValue) :
    Except String moduleContext :=
  match mapGet mc.outputValues key with
  | some _ => .error ("output key already exists: " ++ key)
  | none => .ok { mc with outputValues := mapSet mc.outputValues key value }

/-- `moduleContext.Input`: look up a resolved input. -/
def moduleContext.Input (mc : moduleContext) (key : String) :
    Except String ModuleInput :=
  match mapGet mc.inputValues key with
  | some v => .ok v
  | none => .error ("input key: " ++ key ++ ": input does not exist")

/-- `moduleContext.DoesNotExist`. -/
def moduleContext.DoesNotExist (mc : moduleContext) : Bool := mc.dne

/-- `moduleContext.Tainted`. -/
def moduleContext.Tainted (mc : moduleContext) : Bool := mc.tainted

/-! ## Modules and the registry (module.go) -/

/-- Model of a Go value implementing the `Module` interface.  `Info` is
pure in the contract; `Check` and `Set` are arbitrary module code that can
interact with the received context only through its interface (publishing
outputs), so they are modelled as functions returning their result together
with the context they leave behind. -/
structure ModuleV where
  info : ModuleInfo
  validate : Operation → Option String
  check : moduleContext → (Bool × Option String) × moduleContext
  set : moduleContext → Option String × moduleContext

/-- A Go `func() Module` registry entry: the nil function value, or a
factory whose call yields a module value (`none` models the factory
returning the nil interface). -/
inductive GoFactory where
  | nilFunc
  | fn (mk : Option ModuleV)

/-- The package-global `registeredModuleFactories` map, passed explicitly. -/
def Registry : Type := List (String × GoFactory)

/-- `RegisterModule` from module.go: a bare map assignment — the source
contains no duplicate check and no panic. -/
def RegisterModule (reg : Registry) (module : String) (factory : GoFactory) :
    Registry :=
  mapSet reg module factory

/-- `NewModule` from module.go: look the factory up, reject a missing or
nil factory as "unknown module" and a nil module value as a creation
failure. -/
def NewModule (reg : Registry) (op : Operation) : Except String ModuleV :=
  match mapGet reg op.module with
  | some (.fn mk) =>
    match mk with
    | some m => .ok m
    | none => .error ("failed to create module: " ++ op.module)
  | some .nilFunc => .error ("unknown module: " ++ op.module)
  | none => .error ("unknown module: " ++ op.module)

/-- The first loop of `newModuleContext`: copy the static inputs of the
operation into the fresh input map, in iteration order. -/
def staticInputsLoop (iv : List (String × ModuleInput)) :
    List (String × ModuleInput) → List (String × ModuleInput)
  | [] => iv
  | (k, v) :: rest =>
    if v.IsStatic then staticInputsLoop (mapSet iv k v) rest
    else staticInputsLoop iv rest

/-- The second loop of `newModuleContext`: for every input declared in the
module info that is still unset, substitute the declared default when the
default is non-nil or the input is optional. -/
def defaultsLoop (iv : List (String × ModuleInput)) :
    List (String × InputValue) → List (String × ModuleInput)
  | [] => iv
  | (name, param) :: rest =>
    match mapGet iv name with
    | some _ => defaultsLoop iv rest
    | none =>
      if param.default ≠ GoValue.nil ∨ param.required = false then
        defaultsLoop (mapSet iv name (NewInputFromValue param.default)) rest
      else defaultsLoop iv rest

/-- `newModuleContext` from module.go.  The source panics when the module id
is not registered; calling a nil factory or taking `Info` of a nil module
would be runtime panics at `module().Info()`.  All three panic paths are the
error case of the embedding. -/
def newModuleContext (reg : Registry) (op : Operation) :
    Except String moduleContext :=
  match mapGet reg op.module with
  | none => .error ("module " ++ op.module ++ " is not registered")
  | some .nilFunc => .error "runtime panic: call of nil function"
  | some (.fn none) => .error "runtime panic: nil pointer dereference"
  | some (.fn (some m)) =>
    .ok { inputValues := defaultsLoop (staticInputsLoop [] op.inputs) m.info.inputs
          outputValues := []
          dne := op.doesNotExist
          tainted := op.tainted }

/-- `OpContext` from module.go: the exported wrapper around
`newModuleContext` (same panic behaviour). -/
def OpContext (reg : Registry) (op : Operation) : Except String moduleContext :=
  newModuleContext reg op

/-- `Operation.execute` from operation.go, instrumented with a flag telling
whether `Set` was invoked.  A check error is only logged by the source; the
check boolean alone decides whether `Set` runs. -/
def Operation.execute (reg : Registry) (o : Operation) (mctx : moduleContext) :
    Option String × moduleContext × Bool :=
  match NewModule reg o with
  | .error e => (some e, mctx, false)
  | .ok m =>
    let cr := (m.check mctx).1
    let mctx1 := (m.check mctx).2
    if cr.1 then (none, mctx1, false)
    else
      let sr := m.set mctx1
      (sr.1, sr.2, true)

/-! ## Type validation and context wiring (workflow.go) -/

/-- The loop of `checkInputsOutputs` over the inputs declared by the
module: required inputs must be present, static inputs must be assignable
to the declared type, dependency inputs must reference an existing
operation whose declared output exists and has exactly the declared input
type. -/
def checkInputsLoop (op : Operation) (opsInfo : List (String × ModuleInfo)) :
    List (String × InputValue) → Except String Unit
  | [] => .ok ()
  | (name, param) :: rest =>
    match mapGet op.inputs name with
    | none =>
      if param.required then
        .error ("missing required input " ++ name ++ " for operation " ++ op.id)
      else checkInputsLoop op opsInfo rest
    | some input =>
      if input.IsStatic then
        if matchesType input.Any param.type then checkInputsLoop op opsInfo rest
        else
          .error ("input " ++ name ++ " for operation " ++ op.id ++
            " is static but is not assignable to expected type")
      else
        match mapGet opsInfo input.DependencyId with
        | none =>
          .error ("dependency operation " ++ input.DependencyId ++ " for input " ++
            name ++ " in operation " ++ op.id ++ " not found")
        | some depInfo =>
          match mapGet depInfo.outputs input.OutputKey with
          | none =>
            .error ("output " ++ input.OutputKey ++ " from dependency operation " ++
              input.DependencyId ++ " for input " ++ name ++ " in operation " ++
              op.id ++ " not found")
          | some output =>
            if output.type == param.type then checkInputsLoop op opsInfo rest
            else
              .error ("input " ++ name ++ " for operation " ++ op.id ++
                " is does not match expected type from dependency " ++
                input.DependencyId)

/-- `checkInputsOutputs` from workflow.go. -/
def checkInputsOutputs (op : Operation) (info : ModuleInfo)
    (opsInfo : List (String × ModuleInfo)) : Except String Unit :=
  checkInputsLoop op opsInfo info.inputs

/-- The loop of `workflowExecution.setupOperationContext` over the
operation's inputs: inject every dependency-sourced input from the stored
context of the dependency operation. -/
def setupInputsLoop (opCtxs : List (String × moduleContext))
    (mctx : moduleContext) :
    List (String × ModuleInput) → Except String moduleContext
  | [] => .ok mctx
  | (k, input) :: rest =>
    if input.IsStatic then setupInputsLoop opCtxs mctx rest
    else
      match mapGet opCtxs input.DependencyId with
      | none =>
        .error ("dependency operation context not found: " ++ input.DependencyId)
      | some depCtx =>
        match depCtx.getOutput input.OutputKey with
        | .error e => .error e
        | .ok depOutput => setupInputsLoop opCtxs (mctx.setInput k depOutput) rest

/-- `workflowExecution.setupOperationContext` from workflow.go. -/
def setupOperationContext (opCtxs : List (String × moduleContext))
    (mctx : moduleContext) (op : Operation) : Except String moduleContext :=
  setupInputsLoop opCtxs mctx op.inputs

/-! ## The workflow executor (workflow.go) -/

/-- `Workflow` from workflow.go; the opaque `Source` handle is irrelevant
to execution and not modelled. -/
structure Workflow where
  name : String := ""
  description : String := ""
  operations : List Operation := []

/-- `WorkflowResult` from workflow.go (`Op` is a nilable pointer). -/
structure WorkflowResult where
  phase : String := ""
  op : Option Operation := none
  err : Option String := none
  totalOperations : Nat := 0
  completedOperations : Nat := 0
  deriving DecidableEq, Repr

def phaseSetup : String := "Setup"
def phaseValidate : String := "Validate"
def phaseExecute : String := "Execute"

/-- Rendering of the sort error as wrapped by the executor
(`fmt.Errorf("unable to sort operations: %w", err)`). -/
def DfsErr.msg : DfsErr → String
  | .cycle id => "cycle involving " ++ id ++ ": operation cycle detected"
  | .fuelExhausted => "fuel exhausted"

/-- Outcome of one executor phase: a Go runtime panic, an early return of
the run result, or fall-through to the next phase. -/
inductive PhaseOut (α : Type) where
  | panic (msg : String)
  | fail (op : Option Operation) (err : String)
  | next (a : α)

/-- The module-instantiation loop of `workflowExecution.execute`: create a
fresh module per operation and record the `{id → module}`, `{id → op}`, and
`{id → info}` maps.  Duplicate ids overwrite, as Go map stores do. -/
def instantiateLoop (reg : Registry) :
    List Operation → List (String × ModuleV) → List (String × Operation) →
    List (String × ModuleInfo) →
    PhaseOut (List (String × ModuleV) × List (String × Operation) ×
      List (String × ModuleInfo))
  | [], modules, operations, moduleInfo => .next (modules, operations, moduleInfo)
  | op :: rest, modules, operations, moduleInfo =>
    match NewModule reg op with
    | .error e =>
      .fail (some op) ("unable to instantiate module for operation: " ++ e)
    | .ok m =>
      instantiateLoop reg rest (mapSet modules op.id m) (mapSet operations op.id op)
        (mapSet moduleInfo op.id m.info)

/-- The typing-validation loop of `workflowExecution.execute` over the
sorted ids.  A sorted id with no module info fails the run (with no
operation attached); the subsequent `operations[opId]` lookup would yield a
nil pointer that `checkInputsOutputs` dereferences — that path is a runtime
panic, proved unreachable. -/
def validateTypingLoop (operations : List (String × Operation))
    (moduleInfo : List (String × ModuleInfo)) :
    List String → PhaseOut Unit
  | [] => .next ()
  | opId :: rest =>
    match mapGet moduleInfo opId with
    | none => .fail none ("unable to find module info for operation " ++ opId)
    | some info =>
      match mapGet operations opId with
      | none => .panic "runtime panic: nil pointer dereference"
      | some op =>
        match checkInputsOutputs op info moduleInfo with
        | .error e => .fail (some op) e
        | .ok _ => validateTypingLoop operations moduleInfo rest

/-- The module-validation loop of `workflowExecution.execute`: iterate the
`operations` map and let each module validate its operation. -/
def validateModuleLoop (modules : List (String × ModuleV)) :
    List (String × Operation) → PhaseOut Unit
  | [] => .next ()
  | (_, op) :: rest =>
    match mapGet modules op.id with
    | none => .fail (some op) ("unable to find module for operation " ++ op.id)
    | some m =>
      match m.validate op with
      | some e =>
        .fail (some op) ("validation failed for operation: " ++ op.id ++ ": " ++ e)
      | none => validateModuleLoop modules rest

/-- The execute loop of `workflowExecution.execute` over the sorted ids:
build the module context (a panic if the module is unregistered), store it
in `we.opCtxs`, wire the dependency inputs, then run check-then-set.  The
result triple carries the last operation pointer, the terminal error, and
the completed count. -/
def executeLoop (reg : Registry) (operations : List (String × Operation)) :
    List String → List (String × moduleContext) → Nat → Option Operation →
    Except String (Option Operation × Option String × Nat)
  | [], _, completed, lastOp => .ok (lastOp, none, completed)
  | id :: rest, opCtxs, completed, _ =>
    match mapGet operations id with
    | none => .error "runtime panic: nil pointer dereference"
    | some op =>
      match newModuleContext reg op with
      | .error e => .error e
      | .ok mctx =>
        let opCtxs1 := mapSet opCtxs id mctx
        match setupOperationContext opCtxs1 mctx op with
        | .error e =>
          .ok (some op, some ("error setting up context: " ++ e), completed)
        | .ok mctx1 =>
          match Operation.execute reg op mctx1 with
          | (some e, _, _) => .ok (some op, some e, completed)
          | (none, mctx2, _) =>
            executeLoop reg operations rest (mapSet opCtxs1 id mctx2)
              (completed + 1) (some op)

/-- `workflowExecution.execute` (the body of `Workflow.Run`): the phase
sequence Setup → Instantiate → Sort → Validate (typing) → Validate
(modules) → Execute.  The Setup loop ranges over the operations slice *by
value*: `op.setup()` mutates the per-iteration copy, so the appended
implicit dependencies are discarded and every later phase sees the original
operations (and `setup` never returns a non-nil error, so the loop cannot
fail).  A `.error` result is a Go runtime panic; `.ok` is the returned
`WorkflowResult`. -/
def workflowExecute (reg : Registry) (w : Workflow) : Except String WorkflowResult :=
  let total := w.operations.length
  match instantiateLoop reg w.operations [] [] [] with
  | .panic msg => .error msg
  | .fail opf e =>
    .ok { phase := phaseSetup, op := opf, err := some e, totalOperations := total }
  | .next (modules, operations, moduleInfo) =>
    match opoSort w.operations with
    | .error e =>
      .ok { phase := phaseSetup, op := none,
            err := some ("unable to sort operations: " ++ e.msg),
            totalOperations := total }
    | .ok sortedIds =>
      match validateTypingLoop operations moduleInfo sortedIds with
      | .panic msg => .error msg
      | .fail opf e =>
        .ok { phase := phaseValidate, op := opf, err := some e,
              totalOperations := total }
      | .next _ =>
        match validateModuleLoop modules operations with
        | .panic msg => .error msg
        | .fail opf e =>
          .ok { phase := phaseValidate, op := opf, err := some e,
                totalOperations := total }
        | .next _ =>
          match executeLoop reg operations sortedIds [] 0 none with
          | .error msg => .error msg
          | .ok (lastOp, errOpt, completed) =>
            .ok { phase := phaseExecute, op := lastOp, err := errOpt,
                  totalOperations := total, completedOperations := completed }

/-! ## Map lemmas -/

lemma mapGet_cons_self {α : Type} (k : String) (v : α) (rest : List (String × α)) :
    mapGet ((k, v) :: rest) k = some v := by
  simp [mapGet]

lemma mapGet_cons_ne {α : Type} {k k' : String} (v : α) (rest : List (String × α))
    (h : k ≠ k') : mapGet ((k, v) :: rest) k' = mapGet rest k' := by
  unfold mapGet
  rw [List.find?_cons_of_neg _ (by simpa using h)]

lemma mapGet_mapSet_self {α : Type} (m : List (String × α)) (k : String) (v : α) :
    mapGet (mapSet m k v) k = some v := by
  induction m with
  | nil => simp [mapSet, mapGet]
  | cons p rest ih =>
    obtain ⟨k', v'⟩ := p
    by_cases h : k' = k
    · subst h
      simp only [mapSet, beq_self_eq_true, if_true]
      exact mapGet_cons_self _ v rest
    · simp only [mapSet, beq_iff_eq, if_neg h]
      rw [mapGet_cons_ne _ _ h]
      exact ih

lemma mapGet_mapSet_ne {α : Type} (m : List (String × α)) {k k' : String}
    (v : α) (h : k' ≠ k) : mapGet (mapSet m k v) k' = mapGet m k' := by
  induction m with
  | nil =>
    simp only [mapSet]
    rw [mapGet_cons_ne _ _ (Ne.symm h)]
  | cons p rest ih =>
    obtain ⟨k0, v0⟩ := p
    by_cases h0 : k0 = k
    · subst h0
      simp only [mapSet, beq_self_eq_true, if_true]
      rw [mapGet_cons_ne (k := k0) v rest (Ne.symm h),
        mapGet_cons_ne (k := k0) v0 rest (Ne.symm h)]
    · simp only [mapSet, beq_iff_eq, if_neg h0]
      by_cases h1 : k0 = k'
      · subst h1
        rw [mapGet_cons_self, mapGet_cons_self]
      · rw [mapGet_cons_ne _ _ h1, mapGet_cons_ne _ _ h1]
        exact ih

/-! ## Claim C4: check-then-set control flow -/

/-- **C4 (amended).** The engine marks an operation complete without calling
`Set` exactly when `Check` returned `true` — a non-nil check error is only
logged; `Set` runs exactly when `Check` returned `false`. -/
theorem execute_set_iff_check_false (reg : Registry) (o : Operation)
    (mctx : moduleContext) (m : ModuleV) (h : NewModule reg o = .ok m) :
    (Operation.execute reg o mctx = (none, (m.check mctx).2, false) ↔
      (m.check mctx).1.1 = true) ∧
    ((Operation.execute reg o mctx).2.2 = true ↔ (m.check mctx).1.1 = false) := by
  unfold Operation.execute
  rw [h]
  by_cases hc : (m.check mctx).1.1
  · simp [hc]
  · simp [hc]

/-- A module whose `Check` reports `true` together with a non-nil error,
and whose `Set` records that it ran. -/
def checkErrModule : ModuleV :=
  { info := { id := "check_err" }
    validate := fun _ => none
    check := fun c => ((true, some "test error on check"), c)
    set := fun c =>
      (none, { c with outputValues := mapSet c.outputValues "set_ran" (.bool true) }) }

def checkErrReg : Registry := [("check_err", .fn (some checkErrModule))]

def checkErrOp : Operation := { module := "check_err", id := "op0" }

/-- **C4 counterexample.** With `Check` returning `(true, non-nil error)`
the engine completes the operation with no error and without invoking
`Set` (third component `false`), while the claim requires `Set` to be
called in every case other than `(true, nil)`. -/
theorem execute_check_error_skips_set :
    (checkErrModule.check {}).1 = (true, some "test error on check") ∧
    Operation.execute checkErrReg checkErrOp {} = (none, {}, false) :=
  ⟨rfl, rfl⟩

/-- Witness for the amended C4 at the concrete module above. -/
theorem execute_set_iff_check_false_witness :
    (Operation.execute checkErrReg checkErrOp {} =
      (none, (checkErrModule.check {}).2, false) ↔
      (checkErrModule.check {}).1.1 = true) ∧
    ((Operation.execute checkErrReg checkErrOp {}).2.2 = true ↔
      (checkErrModule.check {}).1.1 = false) :=
  execute_set_iff_check_false checkErrReg checkErrOp {} checkErrModule rfl

/-! ## Claim C6: outputs are write-once -/

/-- **C6.** The first `Output(k, v)` on a context that has not written `k`
succeeds; every later `Output(k, _)` on the resulting context fails with
the duplicate-key error, and reading `k` still yields the first value. -/
theorem output_write_once (mc : moduleContext) (k : String) (v : GoValue)
    (h : mapGet mc.outputValues k = none) :
    ∃ mc', mc.Output k v = .ok mc' ∧
      (∀ w, mc'.Output k w = .error ("output key already exists: " ++ k)) ∧
      mc'.getOutput k = .ok v := by
  refine ⟨{ mc with outputValues := mapSet mc.outputValues k v }, ?_, ?_, ?_⟩
  · unfold moduleContext.Output
    rw [h]
  · intro w
    unfold moduleContext.Output
    rw [mapGet_mapSet_self]
  · unfold moduleContext.getOutput
    rw [mapGet_mapSet_self]

/-- Witness for C6: a fresh context and a concrete key/value. -/
theorem output_write_once_witness :
    ∃ mc', ({} : moduleContext).Output "k" (.str "v") = .ok mc' ∧
      (∀ w, mc'.Output "k" w = .error ("output key already exists: " ++ "k")) ∧
      mc'.getOutput "k" = .ok (.str "v") :=
  output_write_once {} "k" (.str "v") rfl

/-! ## Claim C8: `Auto` on an unsigned input -/

/-- **C8.** `Auto` on the input built from `uint64 5` returns the zero
`int64` instead of the detected unsigned value: the `unsignedNumberInput`
arm of `Auto` reads the `numberValue` field, which `NewInputFromValue`
never sets for unsigned values. -/
theorem auto_uint64_mismatch :
    (NewInputFromValue (GoValue.uint64 5)).Auto = .ok (GoValue.int64 0) ∧
    GoValue.int64 0 ≠ GoValue.uint64 5 :=
  ⟨rfl, by decide⟩

/-! ## Claim C9: re-registration -/

def regModA : ModuleV :=
  { info := { id := "a" }, validate := fun _ => none,
    check := fun c => ((true, none), c), set := fun c => (none, c) }

def regModB : ModuleV :=
  { info := { id := "b" }, validate := fun _ => none,
    check := fun c => ((true, none), c), set := fun c => (none, c) }

/-- **C9 counterexample.** Registering the same id twice returns normally
(the source's `RegisterModule` is a single map assignment with no duplicate
check, hence no panic) and leaves the second factory in the registry. -/
theorem registerModule_second_call_overwrites :
    RegisterModule (RegisterModule [] "m" (.fn (some regModA))) "m"
      (.fn (some regModB)) = [("m", GoFactory.fn (some regModB))] :=
  rfl

/-- **C9 (amended).** A second registration under the same id does not
panic; it replaces the factory, and subsequent lookups return the new
factory. -/
theorem registerModule_rereg (reg : Registry) (id : String) (f1 f2 : GoFactory) :
    mapGet (RegisterModule (RegisterModule reg id f1) id f2) id = some f2 :=
  mapGet_mapSet_self _ id f2

/-! ## Claim C7: optional defaults are substituted -/

lemma NewInputFromValue_any (v : GoValue) : (NewInputFromValue v).Any = v := by
  cases v <;> rfl

lemma NewInputFromValue_isStatic (v : GoValue) :
    (NewInputFromValue v).IsStatic = true := by
  cases v <;> rfl

lemma staticInputsLoop_get_absent {name : String} :
    ∀ (inputs : List (String × ModuleInput)) (iv : List (String × ModuleInput)),
      (∀ p ∈ inputs, p.1 ≠ name) →
      mapGet (staticInputsLoop iv inputs) name = mapGet iv name := by
  intro inputs
  induction inputs with
  | nil => intro iv _; rfl
  | cons p rest ih =>
    intro iv habs
    obtain ⟨k, v⟩ := p
    have hk : k ≠ name := habs (k, v) (List.mem_cons_self _ _)
    simp only [staticInputsLoop]
    by_cases hs : v.IsStatic
    · rw [if_pos hs, ih _ (fun q hq => habs q (List.mem_cons_of_mem _ hq)),
        mapGet_mapSet_ne _ _ (Ne.symm hk)]
    · rw [if_neg hs]
      exact ih _ (fun q hq => habs q (List.mem_cons_of_mem _ hq))

lemma defaultsLoop_get_stable {name : String} :
    ∀ (infoInputs : List (String × InputValue)) (iv : List (String × ModuleInput)),
      (∀ p ∈ infoInputs, p.1 ≠ name) →
      mapGet (defaultsLoop iv infoInputs) name = mapGet iv name := by
  intro infoInputs
  induction infoInputs with
  | nil => intro iv _; rfl
  | cons p rest ih =>
    intro iv habs
    obtain ⟨k, param⟩ := p
    have hk : k ≠ name := habs (k, param) (List.mem_cons_self _ _)
    simp only [defaultsLoop]
    cases hg : mapGet iv k with
    | some _ => exact ih _ (fun q hq => habs q (List.mem_cons_of_mem _ hq))
    | none =>
      by_cases hc : param.default ≠ GoValue.nil ∨ param.required = false
      · rw [if_pos hc, ih _ (fun q hq => habs q (List.mem_cons_of_mem _ hq)),
          mapGet_mapSet_ne _ _ (Ne.symm hk)]
      · rw [if_neg hc]
        exact ih _ (fun q hq => habs q (List.mem_cons_of_mem _ hq))

lemma defaultsLoop_sets {name : String} {param : InputValue} :
    ∀ (infoInputs : List (String × InputValue)) (iv : List (String × ModuleInput)),
      (name, param) ∈ infoInputs →
      (infoInputs.map Prod.fst).Nodup →
      mapGet iv name = none →
      (param.default ≠ GoValue.nil ∨ param.required = false) →
      mapGet (defaultsLoop iv infoInputs) name =
        some (NewInputFromValue param.default) := by
  intro infoInputs
  induction infoInputs with
  | nil => intro iv h; simp at h
  | cons p rest ih =>
    intro iv hmem hnd hget hcond
    obtain ⟨k0, p0⟩ := p
    simp only [List.map_cons, List.nodup_cons] at hnd
    rcases List.mem_cons.mp hmem with heq | hmem'
    · have h1 : k0 = name := (Prod.ext_iff.mp heq).1.symm
      have h2 : p0 = param := (Prod.ext_iff.mp heq).2.symm
      rw [h1] at hnd
      rw [h1, h2]
      simp only [defaultsLoop]
      rw [hget, if_pos hcond]
      have hrest : ∀ q ∈ rest, q.1 ≠ name := by
        intro q hq he
        exact hnd.1 (he ▸ List.mem_map.mpr ⟨q, hq, rfl⟩)
      rw [defaultsLoop_get_stable rest _ hrest, mapGet_mapSet_self]
    · have hk0 : k0 ≠ name := by
        intro h0
        apply hnd.1
        rw [h0]
        exact List.mem_map.mpr ⟨(name, param), hmem', rfl⟩
      simp only [defaultsLoop]
      cases hg : mapGet iv k0 with
      | some _ => exact ih _ hmem' hnd.2 hget hcond
      | none =>
        by_cases hc : p0.default ≠ GoValue.nil ∨ p0.required = false
        · rw [if_pos hc]
          refine ih _ hmem' hnd.2 ?_ hcond
          rw [mapGet_mapSet_ne _ _ (Ne.symm hk0)]
          exact hget
        · rw [if_neg hc]
          exact ih _ hmem' hnd.2 hget hcond

/-- **C7.** For every input name absent from the operation's declared
inputs but declared in the module's info as optional with a non-nil
default, the module context built for the operation resolves `Input(name)`
to the declared default without error. -/
theorem input_default_substituted (reg : Registry) (op : Operation)
    (m : ModuleV) (name : String) (param : InputValue)
    (hreg : mapGet reg op.module = some (.fn (some m)))
    (hmem : (name, param) ∈ m.info.inputs)
    (hnd : (m.info.inputs.map Prod.fst).Nodup)
    (habsent : ∀ p ∈ op.inputs, p.1 ≠ name)
    (_hopt : param.required = false) (hdef : param.default ≠ GoValue.nil) :
    ∃ mc, newModuleContext reg op = .ok mc ∧
      mc.Input name = .ok (NewInputFromValue param.default) ∧
      (NewInputFromValue param.default).Any = param.default := by
  unfold newModuleContext
  rw [hreg]
  refine ⟨_, rfl, ?_, NewInputFromValue_any _⟩
  unfold moduleContext.Input
  have h1 : mapGet (staticInputsLoop [] op.inputs) name = none := by
    rw [staticInputsLoop_get_absent op.inputs [] habsent]
    rfl
  rw [defaultsLoop_sets m.info.inputs _ hmem hnd h1 (Or.inl hdef)]

/-- The declared optional input of the test module below. -/
def optParam : InputValue :=
  { type := GoType.string
    required := false
    default := GoValue.str "d" }

/-- A module declaring one optional input with a non-nil default. -/
def defModule : ModuleV :=
  { info := { id := "def_mod", inputs := [("opt", optParam)] }
    validate := fun _ => none
    check := fun c => ((true, none), c)
    set := fun c => (none, c) }

def defReg : Registry := [("def_mod", .fn (some defModule))]

def defOp : Operation := { module := "def_mod", id := "op0" }

/-- Witness for C7 at the concrete module above. -/
theorem input_default_substituted_witness :
    ∃ mc, newModuleContext defReg defOp = .ok mc ∧
      mc.Input "opt" = .ok (NewInputFromValue optParam.default) ∧
      (NewInputFromValue optParam.default).Any = optParam.default :=
  input_default_substituted defReg defOp defModule "opt" optParam
    rfl (by decide) (by decide)
    (by intro p hp; simp [defOp] at hp) rfl (by decide)

/-! ## Claim C5: dependency outputs are wired into consumer inputs -/

lemma setupInputsLoop_get_stable {I : String}
    {opCtxs : List (String × moduleContext)} :
    ∀ (inputs : List (String × ModuleInput)) (mctx mctx' : moduleContext),
      (∀ p ∈ inputs, p.1 ≠ I) →
      setupInputsLoop opCtxs mctx inputs = .ok mctx' →
      mapGet mctx'.inputValues I = mapGet mctx.inputValues I := by
  intro inputs
  induction inputs with
  | nil =>
    intro mctx mctx' _ h
    simp only [setupInputsLoop, Except.ok.injEq] at h
    subst h
    rfl
  | cons p rest ih =>
    intro mctx mctx' habs h
    obtain ⟨k, inp⟩ := p
    have hk : k ≠ I := habs (k, inp) (List.mem_cons_self _ _)
    simp only [setupInputsLoop] at h
    by_cases hs : inp.IsStatic
    · rw [if_pos hs] at h
      exact ih mctx mctx' (fun q hq => habs q (List.mem_cons_of_mem _ hq)) h
    · rw [if_neg hs] at h
      split at h
      next => simp at h
      next depCtx hdep =>
        split at h
        next e hout => simp at h
        next w hout =>
          have := ih _ mctx' (fun q hq => habs q (List.mem_cons_of_mem _ hq)) h
          rw [this]
          unfold moduleContext.setInput
          exact mapGet_mapSet_ne _ _ (Ne.symm hk)

lemma setupInputsLoop_wires {opCtxs : List (String × moduleContext)}
    {A K I : String} {ctxA : moduleContext} {v : GoValue}
    (hA : mapGet opCtxs A = some ctxA)
    (hK : mapGet ctxA.outputValues K = some v) :
    ∀ (inputs : List (String × ModuleInput)) (mctx mctx' : moduleContext),
      (I, NewInputFromDep A K) ∈ inputs →
      (inputs.map Prod.fst).Nodup →
      setupInputsLoop opCtxs mctx inputs = .ok mctx' →
      mapGet mctx'.inputValues I = some (NewInputFromValue v) := by
  intro inputs
  induction inputs with
  | nil => intro mctx mctx' h; simp at h
  | cons p rest ih =>
    intro mctx mctx' hmem hnd h
    obtain ⟨k0, inp0⟩ := p
    simp only [List.map_cons, List.nodup_cons] at hnd
    rcases List.mem_cons.mp hmem with heq | hmem'
    · have h1 : k0 = I := (Prod.ext_iff.mp heq).1.symm
      have h2 : inp0 = NewInputFromDep A K := (Prod.ext_iff.mp heq).2.symm
      rw [h1] at hnd
      rw [h1, h2] at h
      simp only [setupInputsLoop] at h
      rw [if_neg (by simp [NewInputFromDep, ModuleInput.IsStatic])] at h
      have hdid : (NewInputFromDep A K).DependencyId = A := rfl
      have hkey : (NewInputFromDep A K).OutputKey = K := rfl
      rw [hdid, hkey] at h
      have hgout : ctxA.getOutput K = .ok v := by
        unfold moduleContext.getOutput
        rw [hK]
      split at h
      next hdep => rw [hA] at hdep; simp at hdep
      next depCtx hdep =>
        rw [hA] at hdep
        simp only [Option.some.injEq] at hdep
        subst hdep
        split at h
        next e hout => rw [hgout] at hout; simp at hout
        next w hout =>
          rw [hgout] at hout
          simp only [Except.ok.injEq] at hout
          subst hout
          have hrest : ∀ q ∈ rest, q.1 ≠ I := by
            intro q hq he
            exact hnd.1 (he ▸ List.mem_map.mpr ⟨q, hq, rfl⟩)
          rw [setupInputsLoop_get_stable rest _ mctx' hrest h]
          unfold moduleContext.setInput
          exact mapGet_mapSet_self _ _ _
    · simp only [setupInputsLoop] at h
      by_cases hs : inp0.IsStatic
      · rw [if_pos hs] at h
        exact ih mctx mctx' hmem' hnd.2 h
      · rw [if_neg hs] at h
        split at h
        next => simp at h
        next depCtx hdep =>
          split at h
          next e hout => simp at h
          next w hout => exact ih _ mctx' hmem' hnd.2 h

/-- **C5.** If dependency operation `A` wrote `v` under output key `K` via
`Output(K, v)` and consumer operation `B` declares input `I` sourced from
dependency `A.K`, then after the executor wires `B`'s context the value
read via `Input(I)` is exactly `v`, wrapped as a resolved static value. -/
theorem dependency_wiring (opCtxs : List (String × moduleContext))
    (mctx mctx' ctxA0 ctxA : moduleContext) (op : Operation)
    (A K I : String) (v : GoValue)
    (hW : ctxA0.Output K v = .ok ctxA)
    (hA : mapGet opCtxs A = some ctxA)
    (hI : (I, NewInputFromDep A K) ∈ op.inputs)
    (hnd : (op.inputs.map Prod.fst).Nodup)
    (hok : setupOperationContext opCtxs mctx op = .ok mctx') :
    mctx'.Input I = .ok (NewInputFromValue v) ∧
      (NewInputFromValue v).IsStatic = true ∧
      (NewInputFromValue v).Any = v := by
  have hK : mapGet ctxA.outputValues K = some v := by
    unfold moduleContext.Output at hW
    cases hg : mapGet ctxA0.outputValues K with
    | some _ => rw [hg] at hW; simp at hW
    | none =>
      rw [hg] at hW
      simp only [Except.ok.injEq] at hW
      rw [← hW]
      exact mapGet_mapSet_self _ _ _
  refine ⟨?_, NewInputFromValue_isStatic v, NewInputFromValue_any v⟩
  unfold moduleContext.Input
  rw [setupInputsLoop_wires hA hK op.inputs mctx mctx' hI hnd hok]

/-- Concrete dependency-wiring scenario (spec S6): `p` published
`result = "foo"`, `q` reads it as input `value`. -/
def wireCtxP : moduleContext := { outputValues := [("result", .str "foo")] }

def wireOpQ : Operation :=
  { module := "cons", id := "q",
    inputs := [("value", NewInputFromDep "p" "result")] }

/-- Witness for C5 at the concrete S6 scenario. -/
theorem dependency_wiring_witness :
    moduleContext.Input
        { inputValues := [("value", NewInputFromValue (.str "foo"))] } "value" =
      .ok (NewInputFromValue (.str "foo")) ∧
      (NewInputFromValue (GoValue.str "foo")).IsStatic = true ∧
      (NewInputFromValue (GoValue.str "foo")).Any = .str "foo" :=
  dependency_wiring [("p", wireCtxP)] {}
    { inputValues := [("value", NewInputFromValue (.str "foo"))] }
    {} wireCtxP wireOpQ "p" "result" "value" (.str "foo")
    rfl rfl (List.mem_cons_self _ _) (by decide) rfl

/-! ## Claim C10: the context-construction panic is unreachable in a run -/

/-- Invariant established by the instantiation loop: every id with module
info also has a stored operation whose module was successfully created. -/
def InstInv (reg : Registry) (operations : List (String × Operation))
    (moduleInfo : List (String × ModuleInfo)) : Prop :=
  ∀ id, (mapGet moduleInfo id).isSome = true →
    ∃ op m, mapGet operations id = some op ∧ NewModule reg op = .ok m

lemma instantiateLoop_no_panic (reg : Registry) :
    ∀ (ops : List Operation) modules operations moduleInfo msg,
      instantiateLoop reg ops modules operations moduleInfo ≠ .panic msg := by
  intro ops
  induction ops with
  | nil => intro _ _ _ msg h; simp [instantiateLoop] at h
  | cons op rest ih =>
    intro modules operations moduleInfo msg h
    simp only [instantiateLoop] at h
    cases hnm : NewModule reg op with
    | error e => rw [hnm] at h; simp at h
    | ok m =>
      rw [hnm] at h
      exact ih _ _ _ msg h

lemma instantiateLoop_inv (reg : Registry) :
    ∀ (ops : List Operation) modules operations moduleInfo mods2 opsM2 infoM2,
      InstInv reg operations moduleInfo →
      instantiateLoop reg ops modules operations moduleInfo =
        .next (mods2, opsM2, infoM2) →
      InstInv reg opsM2 infoM2 := by
  intro ops
  induction ops with
  | nil =>
    intro modules operations moduleInfo mods2 opsM2 infoM2 hinv h
    simp only [instantiateLoop, PhaseOut.next.injEq, Prod.mk.injEq] at h
    obtain ⟨_, h2, h3⟩ := h
    subst h2; subst h3
    exact hinv
  | cons op rest ih =>
    intro modules operations moduleInfo mods2 opsM2 infoM2 hinv h
    simp only [instantiateLoop] at h
    cases hnm : NewModule reg op with
    | error e => rw [hnm] at h; simp at h
    | ok m =>
      rw [hnm] at h
      refine ih _ _ _ _ _ _ ?_ h
      intro id hsome
      by_cases hid : id = op.id
      · subst hid
        exact ⟨op, m, mapGet_mapSet_self _ _ _, hnm⟩
      · rw [mapGet_mapSet_ne _ _ hid] at hsome
        obtain ⟨op', m', hop', hnm'⟩ := hinv id hsome
        exact ⟨op', m', by rw [mapGet_mapSet_ne _ _ hid]; exact hop', hnm'⟩

lemma validateTypingLoop_no_panic {reg : Registry}
    {operations : List (String × Operation)}
    {moduleInfo : List (String × ModuleInfo)}
    (hinv : InstInv reg operations moduleInfo) :
    ∀ (ids : List String) msg,
      validateTypingLoop operations moduleInfo ids ≠ .panic msg := by
  intro ids
  induction ids with
  | nil => intro msg h; simp [validateTypingLoop] at h
  | cons id rest ih =>
    intro msg h
    simp only [validateTypingLoop] at h
    split at h
    next => simp at h
    next info hmi =>
      split at h
      next hop =>
        obtain ⟨op, m, hop2, _⟩ := hinv id (by rw [hmi]; rfl)
        rw [hop2] at hop
        simp at hop
      next op hop =>
        split at h
        next e hck => simp at h
        next u hck => exact ih msg h

lemma validateTypingLoop_next {operations : List (String × Operation)}
    {moduleInfo : List (String × ModuleInfo)} :
    ∀ (ids : List String), validateTypingLoop operations moduleInfo ids = .next () →
      ∀ id ∈ ids, (mapGet moduleInfo id).isSome = true := by
  intro ids
  induction ids with
  | nil => intro _ id h; simp at h
  | cons i rest ih =>
    intro h id hmem
    simp only [validateTypingLoop] at h
    split at h
    next => simp at h
    next info hmi =>
      split at h
      next hop => simp at h
      next op hop =>
        split at h
        next e hck => simp at h
        next u hck =>
          rcases List.mem_cons.mp hmem with heq | hmem'
          · rw [heq, hmi]; rfl
          · exact ih h id hmem'

lemma validateModuleLoop_no_panic (modules : List (String × ModuleV)) :
    ∀ (operations : List (String × Operation)) msg,
      validateModuleLoop modules operations ≠ .panic msg := by
  intro operations
  induction operations with
  | nil => intro msg h; simp [validateModuleLoop] at h
  | cons p rest ih =>
    intro msg h
    obtain ⟨k, op⟩ := p
    simp only [validateModuleLoop] at h
    split at h
    next => simp at h
    next m hm =>
      split at h
      next e hv => simp at h
      next hv => exact ih msg h

lemma newModuleContext_ok {reg : Registry} {op : Operation} {m : ModuleV}
    (h : NewModule reg op = .ok m) :
    ∃ mc, newModuleContext reg op = .ok mc := by
  unfold NewModule at h
  unfold newModuleContext
  cases hg : mapGet reg op.module with
  | none => rw [hg] at h; simp at h
  | some f =>
    rw [hg] at h
    cases f with
    | nilFunc => simp at h
    | fn mk =>
      cases mk with
      | none => simp at h
      | some m' => exact ⟨_, rfl⟩

lemma executeLoop_ok (reg : Registry) (operations : List (String × Operation)) :
    ∀ (ids : List String) opCtxs completed lastOp,
      (∀ id ∈ ids, ∃ op m, mapGet operations id = some op ∧
        NewModule reg op = .ok m) →
      ∃ r, executeLoop reg operations ids opCtxs completed lastOp = .ok r := by
  intro ids
  induction ids with
  | nil => intro opCtxs completed lastOp _; exact ⟨_, rfl⟩
  | cons id rest ih =>
    intro opCtxs completed lastOp hids
    obtain ⟨op, m, hop, hnm⟩ := hids id (List.mem_cons_self _ _)
    obtain ⟨mc, hmc⟩ := newModuleContext_ok hnm
    simp only [executeLoop, hop, hmc]
    cases hsu : setupOperationContext (mapSet opCtxs id mc) mc op with
    | error e => simp only [hsu]; exact ⟨_, rfl⟩
    | ok mctx1 =>
      simp only [hsu]
      rcases hex : Operation.execute reg op mctx1 with ⟨e, mctx2, flag⟩
      cases e with
      | some msg => simp only [hex]; exact ⟨_, rfl⟩
      | none =>
        simp only [hex]
        exact ih _ _ _ (fun i hi => hids i (List.mem_cons_of_mem _ hi))

/-- **C10.** Constructing a module context for an operation whose module id
is missing from the registry panics (the error case of the embedding), but
no run of the workflow executor ever reaches a panic: by the time the
Execute phase builds contexts, `NewModule` has succeeded for every executed
operation, so `workflowExecute` always returns a `WorkflowResult`. -/
theorem opContext_panic_unreachable :
    (∀ (reg : Registry) (op : Operation), mapGet reg op.module = none →
      newModuleContext reg op =
        .error ("module " ++ op.module ++ " is not registered")) ∧
    (∀ (reg : Registry) (w : Workflow), ∃ r, workflowExecute reg w = .ok r) := by
  constructor
  · intro reg op h
    unfold newModuleContext
    rw [h]
  · intro reg w
    unfold workflowExecute
    cases hinst : instantiateLoop reg w.operations [] [] [] with
    | panic msg => exact absurd hinst (instantiateLoop_no_panic reg _ _ _ _ msg)
    | fail opf e => simp only [hinst]; exact ⟨_, rfl⟩
    | next t =>
      obtain ⟨modules, operations, moduleInfo⟩ := t
      have hinv : InstInv reg operations moduleInfo :=
        instantiateLoop_inv reg w.operations [] [] [] _ _ _
          (fun id hsome => by simp [mapGet] at hsome) hinst
      simp only [hinst]
      cases hsort : opoSort w.operations with
      | error e => exact ⟨_, rfl⟩
      | ok sortedIds =>
        cases hvt : validateTypingLoop operations moduleInfo sortedIds with
        | panic msg => exact absurd hvt (validateTypingLoop_no_panic hinv _ msg)
        | fail opf e => simp only [hvt]; exact ⟨_, rfl⟩
        | next u =>
          obtain ⟨⟩ := u
          simp only [hvt]
          cases hvm : validateModuleLoop modules operations with
          | panic msg => exact absurd hvm (validateModuleLoop_no_panic modules _ msg)
          | fail opf e => simp only [hvm]; exact ⟨_, rfl⟩
          | next u2 =>
            obtain ⟨⟩ := u2
            simp only [hvm]
            obtain ⟨r, hr⟩ := executeLoop_ok reg operations sortedIds [] 0 none
              (fun id hid => hinv id (validateTypingLoop_next sortedIds hvt id hid))
            rw [hr]
            exact ⟨_, rfl⟩

/-- Witness for C10: the unregistered-module panic at a concrete operation,
and a concrete complete run. -/
theorem opContext_panic_unreachable_witness :
    newModuleContext ([] : Registry) { module := "m" } =
      .error ("module " ++ "m" ++ " is not registered") ∧
    ∃ r, workflowExecute checkErrReg { operations := [checkErrOp] } = .ok r :=
  ⟨opContext_panic_unreachable.1 ([] : Registry) { module := "m" } rfl,
    opContext_panic_unreachable.2 checkErrReg { operations := [checkErrOp] }⟩

/-! ## Claim C2: implicit dependencies and the Setup phase

`Operation.setup` does append every `DependencyRef` input's dependency id to
the receiver's `DependsOn`.  The driver, however, runs the Setup loop as
`for _, op := range we.w.Operations`: `op` is a by-value copy of the slice
element, so the appended ids die with the copy and `opoSort` later reads the
original, unmodified operations.  The scenario below (consumer declared
before its producer, dependency expressed only through an input) makes the
difference observable end to end. -/

/-- The declared output of the producer module below. -/
def prodOut : OutputValue := { type := GoType.string }

/-- The declared required input of the consumer module below. -/
def consIn : InputValue := { type := GoType.string, required := true }

/-- The producer module of the wiring scenario: `Check` publishes
`result = "foo"`. -/
def prodModule : ModuleV :=
  { info := { id := "prod", outputs := [("result", prodOut)] }
    validate := fun _ => none
    check := fun c =>
      match c.Output "result" (.str "foo") with
      | .ok c2 => ((true, none), c2)
      | .error e => ((false, some e), c)
    set := fun c => (none, c) }

/-- The consumer module of the wiring scenario: one required string
input. -/
def consModule : ModuleV :=
  { info := { id := "cons", inputs := [("value", consIn)] }
    validate := fun _ => none
    check := fun c => ((true, none), c)
    set := fun c => (none, c) }

def wiringReg : Registry :=
  [("prod", .fn (some prodModule)), ("cons", .fn (some consModule))]

/-- Consumer operation: input `value` comes from `p.result`, no explicit
`DependsOn`. -/
def opQ : Operation :=
  { module := "cons", id := "q",
    inputs := [("value", NewInputFromDep "p" "result")] }

/-- Producer operation, declared after the consumer. -/
def opP : Operation := { module := "prod", id := "p" }

def wfImplicit : Workflow := { operations := [opQ, opP] }

/-- **C2.** `Operation.setup` itself does merge the implicit dependency
(`setup q` yields `DependsOn = ["p"]`), but the driver discards the merge:
the operations handed to `opoSort` still carry the original empty
`DependsOn`, the sort places the consumer `q` before its producer `p`, and
the run fails in the Execute phase because `q`'s dependency context does
not exist yet — contradicting the claim that the sorted order places every
implicitly-referenced dependency first. -/
theorem setup_discarded_before_sort :
    (Operation.setup opQ).dependsOn = ["p"] ∧
    opQ.dependsOn = [] ∧
    opoSort [opQ, opP] = .ok ["q", "p"] ∧
    workflowExecute wiringReg wfImplicit = .ok
      { phase := phaseExecute, op := some opQ,
        err := some "error setting up context: dependency operation context not found: p",
        totalOperations := 2, completedOperations := 0 } :=
  ⟨rfl, rfl, rfl, by rfl⟩

end Blackstart



-- (the Go test table of TestOpoSort, checked by evaluation)
namespace Blackstart

/-- The embedded `opoSort` reproduces the source's own test table
(`TestOpoSort` in workflow_test.go), including the offending node the cycle
cases report. -/
theorem opoSort_matches_go_tests :
    opoSort [{ id := "test0" }, { id := "test1", dependsOn := ["test0"] },
      { id := "test2", dependsOn := ["test1"] }] =
      .ok ["test0", "test1", "test2"] ∧
    opoSort [{ id := "test0" }, { id := "test1", dependsOn := ["test2"] },
      { id := "test2", dependsOn := ["test0"] }] =
      .ok ["test0", "test2", "test1"] ∧
    opoSort [{ id := "test0" }, { id := "test1", dependsOn := ["test0"] },
      { id := "test2", dependsOn := ["test0"] },
      { id := "test3", dependsOn := ["test2"] }] =
      .ok ["test0", "test1", "test2", "test3"] ∧
    opoSort [{ id := "test0" }, { id := "test1", dependsOn := ["test0"] },
      { id := "test2", dependsOn := ["test0"] },
      { id := "test3", dependsOn := ["test3"] }] =
      .error (.cycle "test3") ∧
    opoSort [{ id := "test0", dependsOn := ["test3"] },
      { id := "test1", dependsOn := ["test0"] },
      { id := "test2", dependsOn := ["test1"] },
      { id := "test3", dependsOn := ["test2"] }] =
      .error (.cycle "test0") ∧
    opoSort [{ id := "test0" }, { id := "test1", dependsOn := ["test0", "test3"] },
      { id := "test2" }, { id := "test3", dependsOn := ["test2"] }] =
      .ok ["test0", "test2", "test3", "test1"] :=
  ⟨rfl, rfl, rfl, rfl, rfl, rfl⟩

end Blackstart
